import Mathlib

/-!
Verification of the SEO Fibonacci Analysis Tool (a JavaScript web application)
against its natural-language specification.

The development shallowly embeds the analysis core of the repository:

* `js/config.js` — the configuration constants (`CONFIG_FIBONACCI_LEVELS`,
  `CONFIG_VOLATILITY_THRESHOLD`, `CONFIG_PATTERN_TOLERANCE`);
* the wide-format SEMrush adapter (`transformSEMrushDataWide`);
* the long-format SEMrush adapter (`js/semrush-adapter.js`:
  `formatDate`, `transformSEMrushDataLong`);
* `js/analyzer.js` — the `SEOFibonacciAnalyzer` class (`processRawData`,
  `calculateVolatility`, `getKeywordData`, `calculateFibonacciLevels`,
  `findFibonacciPatterns`, `calculateFibonacciReliability`,
  `predictNextRanking`).

Modelling conventions:

* JavaScript numbers are embedded as `ℚ` (the analysis never leaves the
  representable range, and the spec reasons in exact arithmetic); the one
  irrational operation, `Math.sqrt`, is embedded as `Real.sqrt`, so the
  volatility score lives in `ℝ`.
* CSV cell values (which arrive either as numbers or as strings, depending
  on the `dynamicTyping` parse option) are embedded as `JsValue`.
* JavaScript `Date` objects constructed from `YYYY-MM-DD` strings are keyed
  by their string: for such ISO strings, epoch-timestamp order coincides
  with lexicographic string order, so sorting by timestamp is embedded as
  sorting by the date string.
* JavaScript `Array.prototype.sort` is stable (ES2019); a stable sort over a
  total preorder has a unique output, so it is embedded as
  `List.insertionSort`, Mathlib's stable sort.
* Class methods are embedded as functions taking the object state
  (`AnalyzerState`) and returning the result paired with the state after the
  call, so that frame properties ("the call does not mutate the analyzer")
  are statable.
-/

namespace SeoFib

/-! ## JavaScript value and string primitives -/

/-- A CSV cell value as delivered by PapaParse: a number (when
`dynamicTyping` fired) or a raw string. -/
inductive JsValue where
  | num (q : ℚ)
  | str (s : String)
deriving DecidableEq, Repr

/-- Truncation toward zero, the rounding `parseInt` applies to a numeric
argument (`parseInt(3.7) = 3`, `parseInt(-3.7) = -3`). -/
def jsTrunc (q : ℚ) : ℤ :=
  if q < 0 then -((-q).floor) else q.floor

/-- Digit run to a natural number (radix 10). -/
def digitsToNat (ds : List Char) : ℕ :=
  ds.foldl (fun acc c => acc * 10 + (c.toNat - 48)) 0

/-- Leading decimal-digit run of a character list; `none` when the list does
not start with a digit (which is what makes `parseInt` return `NaN`). -/
def leadingNat (l : List Char) : Option ℕ :=
  match l.takeWhile Char.isDigit with
  | [] => none
  | ds => some (digitsToNat ds)

/-- JavaScript `parseInt` on a string (radix 10): optional sign, then the
leading digit run; `NaN` (here `none`) when no digits are found.  Leading
whitespace skipping is not modelled — no caller produces it. -/
def jsParseIntStr (s : String) : Option ℤ :=
  match s.toList with
  | '-' :: rest => (leadingNat rest).map (fun n => -(n : ℤ))
  | '+' :: rest => (leadingNat rest).map (fun n => (n : ℤ))
  | l => (leadingNat l).map (fun n => (n : ℤ))

/-- JavaScript `parseInt` on a cell value: numbers are truncated toward
zero, strings are parsed; `none` models `NaN`. -/
def jsParseInt : JsValue → Option ℤ
  | .num q => some (jsTrunc q)
  | .str s => jsParseIntStr s

/-- Fractional digit run value: `digits / 10^len`. -/
def fracValue (ds : List Char) : ℚ :=
  (digitsToNat ds : ℚ) / (10 : ℚ) ^ ds.length

/-- JavaScript `parseFloat` on a string: optional sign, integer digits,
optional fraction; `none` models `NaN` (no digits at all).  Exponents are
not modelled — no caller produces them. -/
def jsParseFloatStr (s : String) : Option ℚ :=
  let core : List Char → Option ℚ := fun l =>
    let intPart := l.takeWhile Char.isDigit
    let rest := l.dropWhile Char.isDigit
    let fracPart := match rest with
      | '.' :: r => r.takeWhile Char.isDigit
      | _ => []
    if intPart.isEmpty ∧ fracPart.isEmpty then none
    else some ((digitsToNat intPart : ℚ) + fracValue fracPart)
  match s.toList with
  | '-' :: rest => (core rest).map (fun q => -q)
  | '+' :: rest => core rest
  | l => core l

/-- JavaScript `parseFloat` on a cell value. -/
def jsParseFloat : JsValue → Option ℚ
  | .num q => some q
  | .str s => jsParseFloatStr s

/-- JavaScript `str.slice(a, b)` / `str.substring(a, b)` for `0 ≤ a ≤ b`,
on the character list of the string. -/
def jsSlice (s : String) (a b : ℕ) : String :=
  String.mk ((s.toList.drop a).take (b - a))

/-- JavaScript `String.prototype.split` with a one-character separator,
on the character list (empty segments are kept, as in JS). -/
def splitOnChar (c : Char) : List Char → List (List Char)
  | [] => [[]]
  | x :: xs =>
    let r := splitOnChar c xs
    if x = c then [] :: r else (x :: r.headD []) :: r.tail

/-- JavaScript `key.split('_').pop()`: the token after the last underscore
(the whole string when it has no underscore). -/
def lastToken (s : String) : String :=
  String.mk (((splitOnChar '_' s.toList).getLast?).getD s.toList)

/-- JavaScript `key.substring(0, key.lastIndexOf('_'))`: everything before
the last underscore (empty when the string has no underscore). -/
def stripLastToken (s : String) : String :=
  String.mk (List.intercalate ['_'] ((splitOnChar '_' s.toList).dropLast))

/-- Substring test on character lists (`pat` occurs contiguously in the
list). -/
def listContains (pat : List Char) : List Char → Bool
  | [] => pat.isEmpty
  | c :: rest => pat.isPrefixOf (c :: rest) || listContains pat rest

/-- JavaScript `s.includes(pat)`. -/
def jsIncludes (s pat : String) : Bool :=
  listContains pat.toList s.toList

/-! ## Configuration constants (`js/config.js`) -/

/-- `CONFIG.FIBONACCI_LEVELS` from `js/config.js`. -/
def CONFIG_FIBONACCI_LEVELS : List ℚ :=
  [0, 236/1000, 382/1000, 5/10, 618/1000, 786/1000, 1]

/-- `CONFIG.VOLATILITY_THRESHOLD` from `js/config.js`. -/
def CONFIG_VOLATILITY_THRESHOLD : ℚ := 10

/-- `CONFIG.PATTERN_TOLERANCE` from `js/config.js`. -/
def CONFIG_PATTERN_TOLERANCE : ℚ := 2

/-! ## The wide-format SEMrush adapter

`transformSEMrushData` (the wide variant): each input row carries one
keyword plus one column per tracked date, the column name ending in an
8-digit `_YYYYMMDD` token. -/

/-- A raw wide-format CSV row: the `Keyword` and `Search Volume` columns,
plus the remaining columns as an association list in header order.  (In the
JS object the two named columns sit alongside the date columns; they are
split off here because the date-column filter — which requires the substring
`_202` in the key — can never select them.) -/
structure WideRow where
  Keyword : String
  SearchVolume : JsValue
  cells : List (String × JsValue)
deriving DecidableEq, Repr

/-- A record produced by the wide adapter and consumed by
`SEOFibonacciAnalyzer.processRawData` (fields `Keyword`, `Date`, `Position`,
`URL`, `Volume`). -/
structure RawEntry where
  Keyword : String
  Date : String
  Position : ℚ
  URL : String
  Volume : ℚ
deriving DecidableEq, Repr

/-- Reformats the `YYYYMMDD` token of a date column name as `YYYY-MM-DD`
(`substring(0,4)`, `substring(4,6)`, `substring(6,8)`). -/
def reformatDateToken (datePart : String) : String :=
  jsSlice datePart 0 4 ++ "-" ++ jsSlice datePart 4 6 ++ "-" ++ jsSlice datePart 6 8

/-- Value of a column of a wide row (`row[key]`); an absent property reads
as `undefined`, which `parseInt` treats like the empty string (`NaN`). -/
def cellOf (row : WideRow) (key : String) : JsValue :=
  (row.cells.lookup key).getD (JsValue.str "")

/-- The date columns of a wide row: keys containing `_202` but neither
`_type` nor `_landing` (in header order, before the chronological sort). -/
def dateColumnsOf (row : WideRow) : List String :=
  (row.cells.map Prod.fst).filter fun key =>
    jsIncludes key "_202" && !jsIncludes key "_type" && !jsIncludes key "_landing"

/-- The URL for a date column, read from the sibling `..._landing` column
(`row[landingCol] || ''`); landing cells are URL strings. -/
def landingUrlOf (row : WideRow) (dateCol datePart : String) : String :=
  match row.cells.lookup (stripLastToken dateCol ++ "_" ++ datePart ++ "_landing") with
  | some (JsValue.str s) => s
  | _ => ""

/-- One output record per date column whose cell parses as an integer
(the body of the inner `forEach` of the wide adapter). -/
def wideRowRecords (row : WideRow) : List RawEntry :=
  let keyword := row.Keyword
  let searchVolume := (jsParseFloat row.SearchVolume).getD 0
  let dateColumns := dateColumnsOf row
  let sortedColumns :=
    dateColumns.insertionSort fun a b => ¬ lastToken b < lastToken a
  sortedColumns.filterMap fun dateCol =>
    match jsParseInt (cellOf row dateCol) with
    | none => none
    | some position =>
      let datePart := lastToken dateCol
      some { Keyword := keyword
             Date := reformatDateToken datePart
             Position := (position : ℚ)
             URL := landingUrlOf row dateCol datePart
             Volume := searchVolume }

/-- The wide-format `transformSEMrushData` (`rawData.forEach` pushing one
entry per date column with ranking data). -/
def transformSEMrushDataWide (rawData : List WideRow) : List RawEntry :=
  rawData.flatMap wideRowRecords

/-! ## The long-format SEMrush adapter (`js/semrush-adapter.js`) -/

/-- A raw long-format CSV row (`Keyword`, `Date`, `Position`,
`Search Volume` columns; the `URL` column is not read by this adapter). -/
structure LongRow where
  Keyword : String
  Date : String
  Position : JsValue
  SearchVolume : JsValue
deriving DecidableEq, Repr

/-- A record produced by the long-format adapter (lower-case fields
`keyword`, `position`, `searchVolume`, `date`, `timestamp`).  The
`timestamp` field models `new Date(date).getTime()`; for the `YYYY-MM-DD`
strings produced by `formatDate`, timestamp order coincides with the order
of the date string, so it is kept as that string. -/
structure LongRecord where
  keyword : String
  position : ℤ
  searchVolume : ℤ
  date : String
  timestamp : String
deriving DecidableEq, Repr

/-- Models the generic JavaScript date parser (`new Date(dateStr)` followed
by `toISOString().split('T')[0]`) on the formats that matter here: an ISO
`YYYY-MM-DD` string parses to itself; a string that is not in that shape is
an Invalid Date (`none`).  (Real engines accept further formats; every
claim about this parser only needs ISO inputs and clearly unparseable
inputs such as `"not-a-date"`.) -/
def jsDateParse (s : String) : Option String :=
  let l := s.toList
  if l.length = 10 ∧
      (l.take 4).all Char.isDigit ∧ l.get? 4 = some '-' ∧
      ((l.drop 5).take 2).all Char.isDigit ∧ l.get? 7 = some '-' ∧
      (l.drop 8).all Char.isDigit then
    some s
  else
    none

/-- `formatDate` from `js/semrush-adapter.js`: an 8-character date string is
sliced as `YYYYMMDD`; anything else goes through generic date parsing and
throws `Invalid date format: ...` when unparseable. -/
def formatDate (dateStr : String) : Except String String :=
  if dateStr.length = 8 then
    Except.ok (jsSlice dateStr 0 4 ++ "-" ++ jsSlice dateStr 4 6 ++ "-" ++ jsSlice dateStr 6 8)
  else
    match jsDateParse dateStr with
    | some iso => Except.ok iso
    | none => Except.error ("Invalid date format: " ++ dateStr)

/-- Modelled from the spec: `CONFIG.SEMRUSH.POSITION_RANGE` is referenced by
`js/semrush-adapter.js` but the `SEMRUSH` section is absent from the
`config.js` in the sources; the spec fixes the acceptance window as
"1 ≤ position" with "an upper bound, e.g. 100". -/
def CONFIG_SEMRUSH_POSITION_MIN : ℤ := 1

/-- Modelled from the spec: the upper bound of the acceptance window (see
`CONFIG_SEMRUSH_POSITION_MIN`). -/
def CONFIG_SEMRUSH_POSITION_MAX : ℤ := 100

/-- The row filter of the long-format `transformSEMrushData`: position
parses to an integer inside the acceptance window, and the `Keyword` and
`Date` cells are truthy (non-empty). -/
def longRowKept (row : LongRow) : Bool :=
  match jsParseInt row.Position with
  | none => false
  | some position =>
    decide (CONFIG_SEMRUSH_POSITION_MIN ≤ position) &&
    decide (position ≤ CONFIG_SEMRUSH_POSITION_MAX) &&
    row.Keyword != "" && row.Date != ""

/-- The `.map` body of the long-format `transformSEMrushData`; `formatDate`
can throw, which aborts the whole `.map` (there is no `try`/`catch` around
it).  The `jsParseInt` calls cannot fail here: the row already passed
`longRowKept`. -/
def longRowRecord (row : LongRow) : Except String LongRecord := do
  let position := (jsParseInt row.Position).getD 0
  let volume := (jsParseInt row.SearchVolume).getD 0
  let date ← formatDate row.Date
  pure { keyword := row.Keyword.trim
         position := position
         searchVolume := volume
         date := date
         timestamp := date }

/-- The long-format `transformSEMrushData` from `js/semrush-adapter.js`:
validate (the required-columns check of `validateSEMrushFormat` is
structural here, because `LongRow` has the required columns by
construction; the empty-input check throws), filter, map (where a bad date
throws and aborts), then a stable sort by timestamp ascending. -/
def transformSEMrushDataLong (rawData : List LongRow) : Except String (List LongRecord) := do
  if rawData.isEmpty then
    throw "Invalid data format: Empty or not an array"
  let mapped ← (rawData.filter longRowKept).mapM longRowRecord
  pure (mapped.insertionSort fun a b => a.timestamp ≤ b.timestamp)

/-! ## The analyzer (`js/analyzer.js`, class `SEOFibonacciAnalyzer`) -/

/-- One point of a keyword series (the `Position` typedef of
`js/analyzer.js`): the `Date` object is keyed by the `YYYY-MM-DD` string it
was constructed from. -/
structure Position where
  date : String
  position : ℚ
  url : String
deriving DecidableEq, Repr

/-- The `KeywordData` typedef of `js/analyzer.js`.  `volatilityScore` is
`none` until `calculateVolatility` assigns it (the JS field is `undefined`
until then); the score itself involves `Math.sqrt`, hence `ℝ`. -/
structure KeywordData where
  keyword : String
  searchVolume : ℤ
  positions : List Position
  volatilityScore : Option ℝ := none

/-- The mutable state of a `SEOFibonacciAnalyzer` object (`this.keywords`
and `this.volatileKeywords`). -/
structure AnalyzerState where
  keywords : List KeywordData
  volatileKeywords : List String

/-- `getKeywordData`: `this.keywords.find(k => k.keyword === keyword) || null`. -/
def getKeywordData (s : AnalyzerState) (keyword : String) : Option KeywordData :=
  s.keywords.find? fun k => k.keyword == keyword

/-- Lodash `_.groupBy(data, 'Keyword')`, keys in first-occurrence order,
each group in input order.  (JavaScript would enumerate an integer-like
keyword such as `"42"` before the others; group enumeration order is not
relied on by any claim.) -/
def insertGroup : List (String × List RawEntry) → String → RawEntry → List (String × List RawEntry)
  | [], k, e => [(k, [e])]
  | (k', es) :: rest, k, e =>
    if k' = k then (k', es ++ [e]) :: rest else (k', es) :: insertGroup rest k e

/-- Group a record list by its `Keyword` field (see `insertGroup`). -/
def groupByKeyword (data : List RawEntry) : List (String × List RawEntry) :=
  data.foldl (fun groups e => insertGroup groups e.Keyword e) []

/-- `processRawData` from `js/analyzer.js`: throw on empty input, group by
keyword, sort each group by date (lodash `_.sortBy`, a stable ascending
sort), and rebuild `this.keywords`; `searchVolume` is
`parseInt(entries[0].Volume) || 0` from the first record in input order
(the `|| 0` fallback only matters for `NaN`, which a numeric `Volume`
cell cannot produce, so it is dropped here).
The `entries.length === 0` guard (mapping to `null`, then `.filter(Boolean)`)
cannot fire for groups built by `groupBy`. -/
def processRawData (s : AnalyzerState) (data : List RawEntry) : Except String AnalyzerState := do
  if data.isEmpty then
    throw "Invalid or empty data provided"
  let keywords := (groupByKeyword data).filterMap fun g =>
    match g.2 with
    | [] => none
    | e₀ :: _ =>
      let sortedEntries := g.2.insertionSort fun a b => a.Date ≤ b.Date
      some { keyword := g.1
             searchVolume := jsTrunc e₀.Volume
             positions := sortedEntries.map fun entry =>
               { date := entry.Date
                 position := entry.Position
                 url := entry.URL }
             volatilityScore := none }
  pure { s with keywords := keywords }

/-! ### Volatility (`calculateVolatility`) -/

/-- The day-over-day absolute position changes
(`positions.slice(1).map((pos, i) => Math.abs(pos - positions[i]))`). -/
def changesOf (positions : List ℚ) : List ℚ :=
  (positions.zip positions.tail).map fun pq => |pq.2 - pq.1|

/-- The body of the `calculateVolatility` loop on one keyword's position
values: `none` when there are no changes (fewer than 2 points, the keyword
is skipped); otherwise `(stdDev / avgPosition) * 100` where `stdDev` is the
square root of the population variance of the changes. -/
noncomputable def volatilityScoreOf (positions : List ℚ) : Option ℝ :=
  let changes := changesOf positions
  if changes.isEmpty then none
  else
    let mean := changes.sum / (changes.length : ℚ)
    let variance := ((changes.map fun b => (b - mean) ^ 2).sum) / (changes.length : ℚ)
    let avgPosition := positions.sum / (positions.length : ℚ)
    some ((Real.sqrt (variance : ℝ) / (avgPosition : ℝ)) * 100)

/-- The arithmetic mean of a list, as the spec words it. -/
def popMean (l : List ℚ) : ℚ := l.sum / (l.length : ℚ)

/-- The population variance of a list, as the spec words it. -/
def popVariance (l : List ℚ) : ℚ :=
  ((l.map fun x => (x - popMean l) ^ 2).sum) / (l.length : ℚ)

/-- The population standard deviation, as the spec words it. -/
noncomputable def popStdDev (l : List ℚ) : ℝ := Real.sqrt ((popVariance l : ℚ) : ℝ)

/-- The volatility score exactly as the spec phrases it:
`(stdDevChange / avgPosition) × 100` with `stdDevChange` the population
standard deviation of the absolute consecutive changes and `avgPosition`
the arithmetic mean of all positions. -/
noncomputable def specVolatilityScore (positions : List ℚ) : ℝ :=
  (popStdDev (changesOf positions) / ((popMean positions : ℚ) : ℝ)) * 100

/-- The sort key of the final `volatileKeywords.sort`:
`this.getKeywordData(kw)?.volatilityScore ?? 0`. -/
noncomputable def volatileSortKey (s : AnalyzerState) (kw : String) : ℝ :=
  match getKeywordData s kw with
  | some kd => kd.volatilityScore.getD 0
  | none => 0

open Classical in
/-- `calculateVolatility` from `js/analyzer.js`: reset `volatileKeywords`,
then for every keyword with at least one change set `volatilityScore` and
push the keyword when the score exceeds `CONFIG.VOLATILITY_THRESHOLD`;
finally sort `volatileKeywords` descending by score (a stable sort whose
key reads the just-updated keyword data). -/
noncomputable def calculateVolatility (s : AnalyzerState) : AnalyzerState :=
  let keywords := s.keywords.map fun kd =>
    match volatilityScoreOf (kd.positions.map Position.position) with
    | none => kd
    | some score => { kd with volatilityScore := some score }
  let volatile := s.keywords.filterMap fun kd =>
    match volatilityScoreOf (kd.positions.map Position.position) with
    | none => none
    | some score =>
      if score > (CONFIG_VOLATILITY_THRESHOLD : ℝ) then some kd.keyword else none
  let updated : AnalyzerState := { s with keywords := keywords }
  { keywords := keywords
    volatileKeywords :=
      volatile.insertionSort fun a b => volatileSortKey updated b ≤ volatileSortKey updated a }

/-! ### Fibonacci retracement levels and patterns -/

/-- JavaScript `Math.min(...positions)` on a non-empty list (the empty case,
which JS maps to `Infinity`, never arises: every `KeywordData` built by
`processRawData` has at least one point). -/
def listMin : List ℚ → ℚ
  | [] => 0
  | p :: ps => ps.foldl min p

/-- JavaScript `Math.max(...positions)` on a non-empty list (see `listMin`). -/
def listMax : List ℚ → ℚ
  | [] => 0
  | p :: ps => ps.foldl max p

/-- The `levels` dictionary keys in JavaScript `Object.entries` order:
property keys that are array indices (`0` and `1`) are enumerated first in
ascending order, then the remaining keys in insertion order. -/
def FIB_LEVELS_ENTRIES_ORDER : List ℚ :=
  [0, 1, 236/1000, 382/1000, 5/10, 618/1000, 786/1000]

/-- The body of `calculateFibonacciLevels` on the looked-up keyword's
position values: `levels[level] = maxPosition - range * level` for each
configured ratio.  The result is the `levels` dictionary as its entry list,
in `Object.entries` order. -/
def calcFibLevels (positions : List ℚ) : List (ℚ × ℚ) :=
  let minPosition := listMin positions
  let maxPosition := listMax positions
  let range := maxPosition - minPosition
  FIB_LEVELS_ENTRIES_ORDER.map fun level => (level, maxPosition - range * level)

/-- The two bounce kinds of the `FibonacciPattern` typedef. -/
inductive BounceType where
  | Support
  | Resistance
deriving DecidableEq, Repr

/-- The `FibonacciPattern` typedef of `js/analyzer.js`. -/
structure FibPattern where
  date : String
  position : ℚ
  fibLevel : ℚ
  bounceType : BounceType
deriving DecidableEq, Repr

/-- The inner loop of `findFibonacciPatterns` at one interior point `pos`
with neighbors `prevPos`/`nextPos`: per level within `PATTERN_TOLERANCE`,
push Support when both neighbors are strictly worse (greater), Resistance
when both are strictly better (lesser), nothing otherwise. -/
def patternsAt (pos : Position) (prevPos nextPos : ℚ) (fibLevels : List (ℚ × ℚ)) :
    List FibPattern :=
  let currentPos := pos.position
  fibLevels.filterMap fun lv =>
    if |currentPos - lv.2| ≤ CONFIG_PATTERN_TOLERANCE then
      if prevPos > currentPos ∧ nextPos > currentPos then
        some { date := pos.date, position := currentPos, fibLevel := lv.1,
               bounceType := BounceType.Support }
      else if prevPos < currentPos ∧ nextPos < currentPos then
        some { date := pos.date, position := currentPos, fibLevel := lv.1,
               bounceType := BounceType.Resistance }
      else none
    else none

/-- The `positions.forEach` of `findFibonacciPatterns`: every index `i`
with `0 < i < length - 1` contributes `patternsAt` of the point and its two
neighbors, here phrased as a sliding window of width 3. -/
def scanPatterns (fibLevels : List (ℚ × ℚ)) : List Position → List FibPattern
  | a :: b :: c :: rest =>
    patternsAt b a.position c.position fibLevels ++ scanPatterns fibLevels (b :: c :: rest)
  | _ => []

/-! ### The four per-keyword query methods, with explicit object state -/

/-- `calculateFibonacciLevels(keyword)`: `null` when the keyword is not
known, otherwise the levels dictionary; the analyzer state is returned
alongside (the method reads but never writes it). -/
def calculateFibonacciLevels (s : AnalyzerState) (keyword : String) :
    Option (List (ℚ × ℚ)) × AnalyzerState :=
  match getKeywordData s keyword with
  | none => (none, s)
  | some keywordData =>
    (some (calcFibLevels (keywordData.positions.map Position.position)), s)

/-- `findFibonacciPatterns(keyword)`: `[]` when the keyword is not known,
otherwise the bounce patterns over all interior points.  The inner
`calculateFibonacciLevels` call is threaded through the state; its `null`
branch is unreachable here because the keyword lookup already succeeded. -/
def findFibonacciPatterns (s : AnalyzerState) (keyword : String) :
    List FibPattern × AnalyzerState :=
  match getKeywordData s keyword with
  | none => ([], s)
  | some keywordData =>
    let r := calculateFibonacciLevels s keyword
    match r.1 with
    | none => ([], r.2)
    | some fibLevels => (scanPatterns fibLevels keywordData.positions, r.2)

/-- `calculateFibonacciReliability(keyword)`: `0` when there are no patterns
or no keyword data, otherwise `patterns / (points - 1) * 100`. -/
def calculateFibonacciReliability (s : AnalyzerState) (keyword : String) :
    ℚ × AnalyzerState :=
  let pr := findFibonacciPatterns s keyword
  match getKeywordData pr.2 keyword with
  | none => (0, pr.2)
  | some keywordData =>
    if pr.1.length = 0 then (0, pr.2)
    else
      let totalMoves : ℚ := (keywordData.positions.length : ℚ) - 1
      ((pr.1.length : ℚ) / totalMoves * 100, pr.2)

/-- `predictNextRanking(keyword)`: `null` without keyword data or a previous
position (`positions[positions.length - 2]?.position` is `undefined` for a
1-point series, and the `!prevPos` guard also fires on a literal position
`0`, which is falsy); otherwise sort the level entries ascending by value
(a stable sort) and pick `levels.find(l => l.value < currentPos) || levels[0]`
for an improving trend, `[...levels].reverse().find(l => l.value > currentPos)
|| levels[levels.length - 1]` otherwise.  A series with no points at all
would make the JS throw on reading `positions[-1].position`; that state is
unreachable from `processRawData` and is returned as `null` here. -/
def predictNextRanking (s : AnalyzerState) (keyword : String) :
    Option (ℚ × ℚ) × AnalyzerState :=
  match getKeywordData s keyword with
  | none => (none, s)
  | some keywordData =>
    match keywordData.positions.getLast? with
    | none => (none, s)
    | some lastPoint =>
      let currentPos := lastPoint.position
      match keywordData.positions.dropLast.getLast? with
      | none => (none, s)
      | some prevPoint =>
        if prevPoint.position = 0 then (none, s)
        else
          let r := calculateFibonacciLevels s keyword
          match r.1 with
          | none => (none, r.2)
          | some fibLevels =>
            let levels := fibLevels.insertionSort fun a b => a.2 ≤ b.2
            if currentPos < prevPoint.position then
              match levels.find? fun l => l.2 < currentPos with
              | some nextLevel => (some nextLevel, r.2)
              | none => (levels.head?, r.2)
            else
              match levels.reverse.find? fun l => l.2 > currentPos with
              | some nextLevel => (some nextLevel, r.2)
              | none => (levels.getLast?, r.2)

/-! ## Helper lemmas about the embedded primitives -/

theorem foldl_min_le_init (ps : List ℚ) : ∀ p : ℚ, ps.foldl min p ≤ p := by
  induction ps with
  | nil => intro p; exact le_refl p
  | cons q ps ih =>
    intro p
    calc (q :: ps).foldl min p = ps.foldl min (min p q) := rfl
    _ ≤ min p q := ih (min p q)
    _ ≤ p := min_le_left p q

theorem foldl_min_le_mem (ps : List ℚ) : ∀ (p x : ℚ), x ∈ ps → ps.foldl min p ≤ x := by
  induction ps with
  | nil => intro p x hx; cases hx
  | cons q ps ih =>
    intro p x hx
    rcases List.mem_cons.mp hx with rfl | hx
    · calc (x :: ps).foldl min p = ps.foldl min (min p x) := rfl
      _ ≤ min p x := foldl_min_le_init ps (min p x)
      _ ≤ x := min_le_right p x
    · exact ih (min p q) x hx

theorem foldl_min_mem (ps : List ℚ) : ∀ p : ℚ, ps.foldl min p = p ∨ ps.foldl min p ∈ ps := by
  induction ps with
  | nil => intro p; exact Or.inl rfl
  | cons q ps ih =>
    intro p
    rcases ih (min p q) with h | h
    · rcases min_choice p q with hm | hm
      · exact Or.inl (by rw [show (q :: ps).foldl min p = ps.foldl min (min p q) from rfl, h, hm])
      · exact Or.inr (List.mem_cons.mpr (Or.inl (by rw [show (q :: ps).foldl min p = ps.foldl min (min p q) from rfl, h, hm])))
    · exact Or.inr (List.mem_cons.mpr (Or.inr h))

theorem foldl_max_init_le (ps : List ℚ) : ∀ p : ℚ, p ≤ ps.foldl max p := by
  induction ps with
  | nil => intro p; exact le_refl p
  | cons q ps ih =>
    intro p
    calc p ≤ max p q := le_max_left p q
    _ ≤ ps.foldl max (max p q) := ih (max p q)
    _ = (q :: ps).foldl max p := rfl

theorem foldl_max_mem_le (ps : List ℚ) : ∀ (p x : ℚ), x ∈ ps → x ≤ ps.foldl max p := by
  induction ps with
  | nil => intro p x hx; cases hx
  | cons q ps ih =>
    intro p x hx
    rcases List.mem_cons.mp hx with rfl | hx
    · calc x ≤ max p x := le_max_right p x
      _ ≤ ps.foldl max (max p x) := foldl_max_init_le ps (max p x)
      _ = (x :: ps).foldl max p := rfl
    · exact ih (max p q) x hx

theorem foldl_max_mem (ps : List ℚ) : ∀ p : ℚ, ps.foldl max p = p ∨ ps.foldl max p ∈ ps := by
  induction ps with
  | nil => intro p; exact Or.inl rfl
  | cons q ps ih =>
    intro p
    rcases ih (max p q) with h | h
    · rcases max_choice p q with hm | hm
      · exact Or.inl (by rw [show (q :: ps).foldl max p = ps.foldl max (max p q) from rfl, h, hm])
      · exact Or.inr (List.mem_cons.mpr (Or.inl (by rw [show (q :: ps).foldl max p = ps.foldl max (max p q) from rfl, h, hm])))
    · exact Or.inr (List.mem_cons.mpr (Or.inr h))

theorem listMin_le {ps : List ℚ} {x : ℚ} (hx : x ∈ ps) : listMin ps ≤ x := by
  cases ps with
  | nil => cases hx
  | cons p ps =>
    rcases List.mem_cons.mp hx with rfl | hx
    · exact foldl_min_le_init ps x
    · exact foldl_min_le_mem ps p x hx

theorem le_listMax {ps : List ℚ} {x : ℚ} (hx : x ∈ ps) : x ≤ listMax ps := by
  cases ps with
  | nil => cases hx
  | cons p ps =>
    rcases List.mem_cons.mp hx with rfl | hx
    · exact foldl_max_init_le ps x
    · exact foldl_max_mem_le ps p x hx

theorem listMin_mem {ps : List ℚ} (h : ps ≠ []) : listMin ps ∈ ps := by
  cases ps with
  | nil => exact absurd rfl h
  | cons p ps =>
    rcases foldl_min_mem ps p with h' | h'
    · exact List.mem_cons.mpr (Or.inl h')
    · exact List.mem_cons.mpr (Or.inr h')

theorem listMax_mem {ps : List ℚ} (h : ps ≠ []) : listMax ps ∈ ps := by
  cases ps with
  | nil => exact absurd rfl h
  | cons p ps =>
    rcases foldl_max_mem ps p with h' | h'
    · exact List.mem_cons.mpr (Or.inl h')
    · exact List.mem_cons.mpr (Or.inr h')

theorem listMin_le_listMax {ps : List ℚ} (h : ps ≠ []) : listMin ps ≤ listMax ps :=
  le_trans (listMin_le (listMax_mem h)) (le_refl _)

/-! ### Level-list lemmas -/

theorem mem_calcFibLevels_of_ratio {ps : List ℚ} {r : ℚ}
    (hr : r ∈ FIB_LEVELS_ENTRIES_ORDER) :
    (r, listMax ps - (listMax ps - listMin ps) * r) ∈ calcFibLevels ps :=
  List.mem_map_of_mem _ hr

theorem calcFibLevels_mem_elim {ps : List ℚ} {lv : ℚ × ℚ}
    (h : lv ∈ calcFibLevels ps) :
    lv.1 ∈ FIB_LEVELS_ENTRIES_ORDER ∧
      lv.2 = listMax ps - (listMax ps - listMin ps) * lv.1 := by
  rcases List.mem_map.mp h with ⟨r, hr, heq⟩
  refine ⟨?_, ?_⟩
  · rw [← heq]; exact hr
  · rw [← heq]

theorem entries_order_iff_config {r : ℚ} :
    r ∈ FIB_LEVELS_ENTRIES_ORDER ↔ r ∈ CONFIG_FIBONACCI_LEVELS := by
  constructor <;> intro h <;>
    simp only [FIB_LEVELS_ENTRIES_ORDER, CONFIG_FIBONACCI_LEVELS, List.mem_cons,
      List.not_mem_nil, or_false] at h ⊢ <;> tauto

theorem calcFibLevels_value_bounds {ps : List ℚ} (hps : ps ≠ []) {lv : ℚ × ℚ}
    (h : lv ∈ calcFibLevels ps) :
    listMin ps ≤ lv.2 ∧ lv.2 ≤ listMax ps := by
  rcases calcFibLevels_mem_elim h with ⟨hr, hval⟩
  have hrange : 0 ≤ listMax ps - listMin ps := sub_nonneg.mpr (listMin_le_listMax hps)
  have hr01 : 0 ≤ lv.1 ∧ lv.1 ≤ 1 := by
    simp only [FIB_LEVELS_ENTRIES_ORDER, List.mem_cons, List.not_mem_nil, or_false] at hr
    rcases hr with h1 | h1 | h1 | h1 | h1 | h1 | h1 <;> rw [h1] <;> norm_num
  constructor
  · rw [hval]
    have : (listMax ps - listMin ps) * lv.1 ≤ (listMax ps - listMin ps) * 1 :=
      mul_le_mul_of_nonneg_left hr01.2 hrange
    linarith
  · rw [hval]
    have : 0 ≤ (listMax ps - listMin ps) * lv.1 := mul_nonneg hrange hr01.1
    linarith

/-- Builds a one-keyword analyzer state (keyword `"kw"`, search volume 10)
from a list of (date, position) pairs, for concrete instantiations. -/
def mkState (ps : List (String × ℚ)) : AnalyzerState :=
  { keywords := [{ keyword := "kw", searchVolume := 10,
                   positions := ps.map fun p => { date := p.1, position := p.2, url := "" },
                   volatilityScore := none }],
    volatileKeywords := [] }

/-! ### Frame lemmas: the four query methods return the state unchanged -/

theorem calculateFibonacciLevels_state (s : AnalyzerState) (keyword : String) :
    (calculateFibonacciLevels s keyword).2 = s := by
  unfold calculateFibonacciLevels
  cases getKeywordData s keyword <;> rfl

theorem findFibonacciPatterns_state (s : AnalyzerState) (keyword : String) :
    (findFibonacciPatterns s keyword).2 = s := by
  unfold findFibonacciPatterns
  cases getKeywordData s keyword with
  | none => rfl
  | some kd =>
    simp only
    cases h : (calculateFibonacciLevels s keyword).1 <;>
      simp only [calculateFibonacciLevels_state]

theorem calculateFibonacciReliability_state (s : AnalyzerState) (keyword : String) :
    (calculateFibonacciReliability s keyword).2 = s := by
  unfold calculateFibonacciReliability
  simp only [findFibonacciPatterns_state]
  cases getKeywordData s keyword with
  | none => rfl
  | some kd =>
    simp only
    split <;> rfl

theorem predictNextRanking_state (s : AnalyzerState) (keyword : String) :
    (predictNextRanking s keyword).2 = s := by
  unfold predictNextRanking
  cases getKeywordData s keyword with
  | none => rfl
  | some kd =>
    simp only
    cases kd.positions.getLast? with
    | none => rfl
    | some lastPoint =>
      simp only
      cases kd.positions.dropLast.getLast? with
      | none => rfl
      | some prevPoint =>
        simp only
        split
        · rfl
        · cases h : (calculateFibonacciLevels s keyword).1 with
          | none => simp only [calculateFibonacciLevels_state]
          | some fibLevels =>
            simp only
            split
            · split <;> simp only [calculateFibonacciLevels_state]
            · split <;> simp only [calculateFibonacciLevels_state]

/-- When no keyword in the state carries the looked-up name, the lookup
misses. -/
theorem getKeywordData_eq_none {s : AnalyzerState} {keyword : String}
    (h : ∀ kd ∈ s.keywords, kd.keyword ≠ keyword) :
    getKeywordData s keyword = none := by
  unfold getKeywordData
  exact List.find?_eq_none.mpr fun kd hkd => by
    simpa using h kd hkd

/-! ## Claim C4 -/

/-- C4: for every keyword series, `calculateFibonacciLevels` computes, with
`low` the minimum position, `high` the maximum and `range = high − low`,
the value `high − range × r` for each configured ratio `r`; the level for
ratio 0 is `high`, the level for ratio 1 is `low`, and when `range = 0`
every level equals the single position value. -/
theorem calculateFibonacciLevels_spec :
    (∀ (s : AnalyzerState) (keyword : String) (kd : KeywordData),
        getKeywordData s keyword = some kd →
        (calculateFibonacciLevels s keyword).1 =
          some (calcFibLevels (kd.positions.map Position.position))) ∧
    ∀ positions : List ℚ,
      (∀ r ∈ CONFIG_FIBONACCI_LEVELS,
          (r, listMax positions - (listMax positions - listMin positions) * r) ∈
            calcFibLevels positions) ∧
      (∀ lv ∈ calcFibLevels positions,
          lv.1 ∈ CONFIG_FIBONACCI_LEVELS ∧
          lv.2 = listMax positions - (listMax positions - listMin positions) * lv.1) ∧
      (0, listMax positions) ∈ calcFibLevels positions ∧
      (1, listMin positions) ∈ calcFibLevels positions ∧
      (listMax positions - listMin positions = 0 →
        ∀ lv ∈ calcFibLevels positions, ∀ p ∈ positions, lv.2 = p) := by
  constructor
  · intro s keyword kd h
    simp [calculateFibonacciLevels, h]
  intro positions
  refine ⟨?_, ?_, ?_, ?_, ?_⟩
  · intro r hr
    exact mem_calcFibLevels_of_ratio (entries_order_iff_config.mpr hr)
  · intro lv hlv
    rcases calcFibLevels_mem_elim hlv with ⟨h1, h2⟩
    exact ⟨entries_order_iff_config.mp h1, h2⟩
  · have h := @mem_calcFibLevels_of_ratio positions 0 (by norm_num [FIB_LEVELS_ENTRIES_ORDER])
    simpa using h
  · have h := @mem_calcFibLevels_of_ratio positions 1 (by norm_num [FIB_LEVELS_ENTRIES_ORDER])
    simpa using h
  · intro hrange lv hlv p hp
    rcases calcFibLevels_mem_elim hlv with ⟨_, hval⟩
    have hminmax : listMin positions = listMax positions := by linarith
    have h1 : listMin positions ≤ p := listMin_le hp
    have h2 : p ≤ listMax positions := le_listMax hp
    rw [hval, hrange]
    linarith

/-- Witness for C4 at the flat one-point series `[7]`: the levels dictionary
is returned for the looked-up keyword, the ratio-1 level is the minimum,
and every level value collapses to the single position `7`. -/
theorem calculateFibonacciLevels_spec_witness :
    (calculateFibonacciLevels (mkState [("d1", 7)]) "kw").1 = some (calcFibLevels [7]) ∧
    (1, listMin [7]) ∈ calcFibLevels [7] ∧
    listMax [7] - listMin [7] = 0 ∧
    ∀ lv ∈ calcFibLevels [7], ∀ p ∈ [(7 : ℚ)], lv.2 = p := by
  have hrange : listMax [(7 : ℚ)] - listMin [(7 : ℚ)] = 0 := by
    norm_num [listMax, listMin]
  refine ⟨calculateFibonacciLevels_spec.1 (mkState [("d1", 7)]) "kw"
      { keyword := "kw", searchVolume := 10,
        positions := [{ date := "d1", position := 7, url := "" }],
        volatilityScore := none } rfl, ?_, hrange, ?_⟩
  · exact (calculateFibonacciLevels_spec.2 [7]).2.2.2.1
  · exact (calculateFibonacciLevels_spec.2 [7]).2.2.2.2 hrange

/-! ## Claim C10 -/

/-- C10: the four per-keyword query methods leave the analyzer state (its
`keywords` and `volatileKeywords` fields) unchanged, and for a keyword
absent from the state they return the degenerate values `null`, `[]`, `0`
and `null` respectively instead of raising an error. -/
theorem queryMethods_frame (s : AnalyzerState) (keyword : String) :
    ((calculateFibonacciLevels s keyword).2 = s ∧
     (findFibonacciPatterns s keyword).2 = s ∧
     (calculateFibonacciReliability s keyword).2 = s ∧
     (predictNextRanking s keyword).2 = s) ∧
    ((∀ kd ∈ s.keywords, kd.keyword ≠ keyword) →
      (calculateFibonacciLevels s keyword).1 = none ∧
      (findFibonacciPatterns s keyword).1 = [] ∧
      (calculateFibonacciReliability s keyword).1 = 0 ∧
      (predictNextRanking s keyword).1 = none) := by
  refine ⟨⟨calculateFibonacciLevels_state s keyword, findFibonacciPatterns_state s keyword,
      calculateFibonacciReliability_state s keyword, predictNextRanking_state s keyword⟩, ?_⟩
  intro h
  have hnone : getKeywordData s keyword = none := getKeywordData_eq_none h
  refine ⟨?_, ?_, ?_, ?_⟩
  · simp [calculateFibonacciLevels, hnone]
  · simp [findFibonacciPatterns, hnone]
  · simp [calculateFibonacciReliability, findFibonacciPatterns_state, hnone,
      findFibonacciPatterns]
  · simp [predictNextRanking, hnone]

/-- Witness for C10: on a one-keyword state, querying the unknown keyword
`"other"` preserves the state and yields the four degenerate results. -/
theorem queryMethods_frame_witness :
    ((calculateFibonacciLevels (mkState [("d1", 5)]) "other").2 = mkState [("d1", 5)] ∧
     (findFibonacciPatterns (mkState [("d1", 5)]) "other").2 = mkState [("d1", 5)] ∧
     (calculateFibonacciReliability (mkState [("d1", 5)]) "other").2 = mkState [("d1", 5)] ∧
     (predictNextRanking (mkState [("d1", 5)]) "other").2 = mkState [("d1", 5)]) ∧
    ((calculateFibonacciLevels (mkState [("d1", 5)]) "other").1 = none ∧
     (findFibonacciPatterns (mkState [("d1", 5)]) "other").1 = [] ∧
     (calculateFibonacciReliability (mkState [("d1", 5)]) "other").1 = 0 ∧
     (predictNextRanking (mkState [("d1", 5)]) "other").1 = none) := by
  have h := queryMethods_frame (mkState [("d1", 5)]) "other"
  exact ⟨h.1, h.2 (by intro kd hkd; simp [mkState] at hkd; simp [hkd])⟩

/-! ## Claim C5 -/

theorem mem_patternsAt {p : FibPattern} {pos : Position} {prevPos nextPos : ℚ}
    {fibLevels : List (ℚ × ℚ)} :
    p ∈ patternsAt pos prevPos nextPos fibLevels ↔
      ∃ lv ∈ fibLevels,
        |pos.position - lv.2| ≤ CONFIG_PATTERN_TOLERANCE ∧
        ((prevPos > pos.position ∧ nextPos > pos.position ∧
            p = { date := pos.date, position := pos.position, fibLevel := lv.1,
                  bounceType := BounceType.Support }) ∨
         (prevPos < pos.position ∧ nextPos < pos.position ∧
            p = { date := pos.date, position := pos.position, fibLevel := lv.1,
                  bounceType := BounceType.Resistance })) := by
  unfold patternsAt
  rw [List.mem_filterMap]
  constructor
  · rintro ⟨lv, hlv, heq⟩
    refine ⟨lv, hlv, ?_⟩
    by_cases h1 : |pos.position - lv.2| ≤ CONFIG_PATTERN_TOLERANCE
    · rw [if_pos h1] at heq
      by_cases h2 : prevPos > pos.position ∧ nextPos > pos.position
      · rw [if_pos h2] at heq
        exact ⟨h1, Or.inl ⟨h2.1, h2.2, (Option.some.injEq _ _ ▸ heq).symm⟩⟩
      · rw [if_neg h2] at heq
        by_cases h3 : prevPos < pos.position ∧ nextPos < pos.position
        · rw [if_pos h3] at heq
          exact ⟨h1, Or.inr ⟨h3.1, h3.2, (Option.some.injEq _ _ ▸ heq).symm⟩⟩
        · rw [if_neg h3] at heq; cases heq
    · rw [if_neg h1] at heq; cases heq
  · rintro ⟨lv, hlv, htol, hcase | hcase⟩
    · refine ⟨lv, hlv, ?_⟩
      rw [if_pos htol, if_pos ⟨hcase.1, hcase.2.1⟩, hcase.2.2]
    · refine ⟨lv, hlv, ?_⟩
      have hnot : ¬(prevPos > pos.position ∧ nextPos > pos.position) := by
        intro hc; exact absurd hcase.1 (asymm hc.1)
      rw [if_pos htol, if_neg hnot, if_pos ⟨hcase.1, hcase.2.1⟩, hcase.2.2]

theorem mem_scanPatterns {fibLevels : List (ℚ × ℚ)} :
    ∀ {l : List Position} {p : FibPattern},
      p ∈ scanPatterns fibLevels l ↔
        ∃ (i : ℕ) (a b c : Position),
          l.get? i = some a ∧ l.get? (i + 1) = some b ∧ l.get? (i + 2) = some c ∧
          p ∈ patternsAt b a.position c.position fibLevels := by
  intro l
  induction l with
  | nil =>
    intro p
    simp [scanPatterns]
  | cons hd tl ih =>
    intro p
    cases tl with
    | nil =>
      simp only [scanPatterns, List.not_mem_nil, false_iff]
      rintro ⟨i, a, b, c, _, hb, hc, _⟩
      rcases i with _ | i
      · cases hb
      · cases (List.get?_eq_none.mpr (by simp : ([hd] : List Position).length ≤ i + 1)) ▸ hb
    | cons snd tl2 =>
      cases tl2 with
      | nil =>
        simp only [scanPatterns, List.not_mem_nil, false_iff]
        rintro ⟨i, a, b, c, _, _, hc, _⟩
        rcases i with _ | i
        · cases hc
        · cases (List.get?_eq_none.mpr (by simp :
            ([hd, snd] : List Position).length ≤ i + 1 + 2)) ▸ hc
      | cons thd tl3 =>
        constructor
        · intro hp
          rcases List.mem_append.mp hp with hp | hp
          · exact ⟨0, hd, snd, thd, rfl, rfl, rfl, hp⟩
          · rcases ih.mp hp with ⟨i, a, b, c, ha, hb, hc, hmem⟩
            exact ⟨i + 1, a, b, c, ha, hb, hc, hmem⟩
        · rintro ⟨i, a, b, c, ha, hb, hc, hmem⟩
          rcases i with _ | i
          · cases ha; cases hb; cases hc
            exact List.mem_append.mpr (Or.inl hmem)
          · exact List.mem_append.mpr (Or.inr (ih.mpr ⟨i, a, b, c, ha, hb, hc, hmem⟩))

/-- C5: `findFibonacciPatterns` records bounces only at interior points:
a pattern is in the result exactly when some index `i+1` (so neither the
first point nor the last) is within `PATTERN_TOLERANCE` of a level value
and both neighbors are strictly greater (a Support bounce at that level)
or both strictly smaller (a Resistance bounce); one pattern per matching
level. -/
theorem findFibonacciPatterns_spec (s : AnalyzerState) (keyword : String)
    (kd : KeywordData) (h : getKeywordData s keyword = some kd) (p : FibPattern) :
    p ∈ (findFibonacciPatterns s keyword).1 ↔
      ∃ (i : ℕ) (a b c : Position),
        kd.positions.get? i = some a ∧
        kd.positions.get? (i + 1) = some b ∧
        kd.positions.get? (i + 2) = some c ∧
        ∃ lv ∈ calcFibLevels (kd.positions.map Position.position),
          |b.position - lv.2| ≤ CONFIG_PATTERN_TOLERANCE ∧
          ((a.position > b.position ∧ c.position > b.position ∧
              p = { date := b.date, position := b.position, fibLevel := lv.1,
                    bounceType := BounceType.Support }) ∨
           (a.position < b.position ∧ c.position < b.position ∧
              p = { date := b.date, position := b.position, fibLevel := lv.1,
                    bounceType := BounceType.Resistance })) := by
  have hfst : (findFibonacciPatterns s keyword).1 =
      scanPatterns (calcFibLevels (kd.positions.map Position.position)) kd.positions := by
    unfold findFibonacciPatterns
    rw [h]
    simp only [calculateFibonacciLevels, h]
  rw [hfst, mem_scanPatterns]
  constructor
  · rintro ⟨i, a, b, c, ha, hb, hc, hmem⟩
    exact ⟨i, a, b, c, ha, hb, hc, mem_patternsAt.mp hmem⟩
  · rintro ⟨i, a, b, c, ha, hb, hc, hmem⟩
    exact ⟨i, a, b, c, ha, hb, hc, mem_patternsAt.mpr hmem⟩

/-- Witness for C5: in the series `5, 3, 5` the middle point is a Support
bounce at the `0.5` level (value `4`, distance `1 ≤ 2`). -/
theorem findFibonacciPatterns_spec_witness :
    { date := "d2", position := 3, fibLevel := 1/2,
      bounceType := BounceType.Support : FibPattern } ∈
      (findFibonacciPatterns (mkState [("d1", 5), ("d2", 3), ("d3", 5)]) "kw").1 := by
  refine (findFibonacciPatterns_spec (mkState [("d1", 5), ("d2", 3), ("d3", 5)]) "kw"
      { keyword := "kw", searchVolume := 10,
        positions := [{ date := "d1", position := 5, url := "" },
                      { date := "d2", position := 3, url := "" },
                      { date := "d3", position := 5, url := "" }],
        volatilityScore := none } rfl _).mpr
    ⟨0, _, _, _, rfl, rfl, rfl, ((1/2 : ℚ), (4 : ℚ)), ?_, ?_, Or.inl ⟨?_, ?_, rfl⟩⟩
  · norm_num [calcFibLevels, FIB_LEVELS_ENTRIES_ORDER, listMin, listMax]
  · norm_num [CONFIG_PATTERN_TOLERANCE]
  · norm_num
  · norm_num

/-! ## Claim C1 -/

/-- C1: on the series `5, 3, 5` every one of the seven retracement levels
lies within the pattern tolerance of the middle point, so
`findFibonacciPatterns` emits 7 patterns for 2 point-to-point moves and
`calculateFibonacciReliability` returns `7 / 2 × 100 = 350`, outside the
`[0, 100]` interval promised by the claim and by the function's own
documentation. -/
theorem calculateFibonacciReliability_exceeds_100 :
    (calculateFibonacciReliability (mkState [("d1", 5), ("d2", 3), ("d3", 5)]) "kw").1 = 350 ∧
    ¬((calculateFibonacciReliability (mkState [("d1", 5), ("d2", 3), ("d3", 5)]) "kw").1 ≤ 100) := by
  have hpat : (findFibonacciPatterns (mkState [("d1", 5), ("d2", 3), ("d3", 5)]) "kw").1 =
      [{ date := "d2", position := 3, fibLevel := 0, bounceType := BounceType.Support },
       { date := "d2", position := 3, fibLevel := 1, bounceType := BounceType.Support },
       { date := "d2", position := 3, fibLevel := 59/250, bounceType := BounceType.Support },
       { date := "d2", position := 3, fibLevel := 191/500, bounceType := BounceType.Support },
       { date := "d2", position := 3, fibLevel := 1/2, bounceType := BounceType.Support },
       { date := "d2", position := 3, fibLevel := 309/500, bounceType := BounceType.Support },
       { date := "d2", position := 3, fibLevel := 393/500, bounceType := BounceType.Support }] := by
    norm_num [findFibonacciPatterns, calculateFibonacciLevels, getKeywordData, mkState,
      scanPatterns, patternsAt, calcFibLevels, FIB_LEVELS_ENTRIES_ORDER, listMin, listMax,
      CONFIG_PATTERN_TOLERANCE, List.find?, abs_le, List.filterMap_cons]
  have h : (calculateFibonacciReliability (mkState [("d1", 5), ("d2", 3), ("d3", 5)]) "kw").1
      = 350 := by
    simp only [calculateFibonacciReliability, findFibonacciPatterns_state, hpat]
    norm_num [getKeywordData, mkState, List.find?]
  exact ⟨h, by rw [h]; norm_num⟩

/-! ## Claim C6 -/

/-- C6 counterexample: for the series `1, 10, 5` (improving trend, current
position 5), the nearest level below the current position has value
`4.438 = 2219/500` (ratio `0.618`), but the code returns the level
`(1, 1)` — the first entry of the value-ascending list, i.e. the lowest
level below, not the nearest. -/
theorem predictNextRanking_not_nearest :
    (predictNextRanking (mkState [("d1", 1), ("d2", 10), ("d3", 5)]) "kw").1 =
      some (1, 1) ∧
    ((618/1000 : ℚ), (2219/500 : ℚ)) ∈ calcFibLevels [1, 10, 5] ∧
    (2219/500 : ℚ) < 5 ∧
    |(5 : ℚ) - 2219/500| < |(5 : ℚ) - 1| := by
  refine ⟨?_, ?_, by norm_num, by rw [abs_of_pos (by norm_num), abs_of_pos (by norm_num)]; norm_num⟩
  · norm_num [predictNextRanking, getKeywordData, mkState, List.find?,
      calculateFibonacciLevels, calcFibLevels, FIB_LEVELS_ENTRIES_ORDER, listMin, listMax,
      List.insertionSort, List.orderedInsert, List.getLast?, List.dropLast]
  · norm_num [calcFibLevels, FIB_LEVELS_ENTRIES_ORDER, listMin, listMax]

instance : IsTotal (ℚ × ℚ) fun a b => a.2 ≤ b.2 :=
  ⟨fun a b => le_total a.2 b.2⟩

instance : IsTrans (ℚ × ℚ) fun a b => a.2 ≤ b.2 :=
  ⟨fun _ _ _ h1 h2 => le_trans h1 h2⟩

theorem getLast?_mem {α : Type} : ∀ {l : List α} {z : α}, l.getLast? = some z → z ∈ l := by
  intro l
  induction l with
  | nil => intro z h; cases h
  | cons a t ih =>
    intro z h
    cases t with
    | nil =>
      cases h
      exact List.mem_cons_self a []
    | cons b t' =>
      rw [List.getLast?_cons_cons] at h
      exact List.mem_cons.mpr (Or.inr (ih h))

theorem sorted_head?_le {l : List (ℚ × ℚ)}
    (hs : l.Sorted fun a b => a.2 ≤ b.2) {h0 x : ℚ × ℚ}
    (hh : l.head? = some h0) (hx : x ∈ l) : h0.2 ≤ x.2 := by
  cases l with
  | nil => cases hh
  | cons a t =>
    cases hh
    rcases List.mem_cons.mp hx with rfl | hx
    · exact le_refl _
    · exact List.rel_of_sorted_cons hs x hx

theorem sorted_le_getLast? {l : List (ℚ × ℚ)}
    (hs : l.Sorted fun a b => a.2 ≤ b.2) {z x : ℚ × ℚ}
    (hz : l.getLast? = some z) (hx : x ∈ l) : x.2 ≤ z.2 := by
  induction l with
  | nil => cases hz
  | cons a t ih =>
    cases t with
    | nil =>
      cases hz
      rcases List.mem_cons.mp hx with rfl | hx
      · exact le_refl _
      · cases hx
    | cons b t' =>
      rw [List.getLast?_cons_cons] at hz
      have hzmem : z ∈ b :: t' := getLast?_mem hz
      rcases List.mem_cons.mp hx with rfl | hx
      · exact List.rel_of_sorted_cons hs z hzmem
      · exact ih hs.of_cons hz hx

/-- On a value-ascending list, the improving-trend search
`find(l => l.value < cur)` either returns the head (the lowest-value
entry) or finds nothing: if the head is below `cur` it is found first;
otherwise no entry is below `cur`. -/
theorem find_lt_head_or_none {l : List (ℚ × ℚ)}
    (hs : l.Sorted fun a b => a.2 ≤ b.2) {h0 : ℚ × ℚ}
    (hh : l.head? = some h0) (cur : ℚ) :
    (l.find? fun x => x.2 < cur) = some h0 ∨ (l.find? fun x => x.2 < cur) = none := by
  cases l with
  | nil => cases hh
  | cons a t =>
    cases hh
    by_cases ha : h0.2 < cur
    · left
      simp [List.find?, ha]
    · right
      refine List.find?_eq_none.mpr fun x hx => ?_
      simp only [decide_eq_true_eq]
      intro hlt
      exact ha (lt_of_le_of_lt (sorted_head?_le hs rfl hx) hlt)

/-- On a value-ascending list, the declining-trend search over the reversed
list `reverse().find(l => l.value > cur)` either returns the last (=
highest-value) entry or finds nothing. -/
theorem rev_find_gt_last_or_none {l : List (ℚ × ℚ)}
    (hs : l.Sorted fun a b => a.2 ≤ b.2) {z : ℚ × ℚ}
    (hz : l.getLast? = some z) (cur : ℚ) :
    (l.reverse.find? fun x => x.2 > cur) = some z ∨
    (l.reverse.find? fun x => x.2 > cur) = none := by
  have hrev : l.reverse.head? = some z := by rw [List.head?_reverse, hz]
  cases hr : l.reverse with
  | nil => rw [hr] at hrev; cases hrev
  | cons z' t' =>
    rw [hr] at hrev
    have hz' : z' = z := by cases hrev; rfl
    rw [hz'] at hr ⊢
    by_cases hgt : z.2 > cur
    · left
      simp [List.find?, hgt]
    · right
      refine List.find?_eq_none.mpr fun x hx => ?_
      simp only [decide_eq_true_eq]
      intro hlt
      have hxl : x ∈ l := by
        rw [← List.mem_reverse, hr]
        exact List.mem_cons.mpr (List.mem_cons.mp hx)
      exact hgt (lt_of_lt_of_le hlt (sorted_le_getLast? hs hz hxl))

theorem one_mem_calcFibLevels (ps : List ℚ) : (1, listMin ps) ∈ calcFibLevels ps := by
  have h := @mem_calcFibLevels_of_ratio ps 1
    (by norm_num [FIB_LEVELS_ENTRIES_ORDER])
  simpa using h

theorem zero_mem_calcFibLevels (ps : List ℚ) : (0, listMax ps) ∈ calcFibLevels ps := by
  have h := @mem_calcFibLevels_of_ratio ps 0
    (by norm_num [FIB_LEVELS_ENTRIES_ORDER])
  simpa using h

/-- C6 amended: `predictNextRanking` returns `null` for series with fewer
than 2 points; for at least 2 points (with valid ranks `≥ 1`, so the falsy
`!prevPos` guard cannot fire) and an improving trend it returns the
lowest-value retracement level — whose value is the series minimum — not
the nearest level below the current position; for a non-improving trend it
returns the highest-value level — the series maximum. -/
theorem predictNextRanking_amended (s : AnalyzerState) (keyword : String)
    (kd : KeywordData) (h : getKeywordData s keyword = some kd)
    (hpos : ∀ p ∈ kd.positions, 1 ≤ p.position) :
    (kd.positions.length < 2 → (predictNextRanking s keyword).1 = none) ∧
    (∀ cur prev : Position,
      kd.positions.getLast? = some cur →
      kd.positions.dropLast.getLast? = some prev →
      (cur.position < prev.position →
        ∃ r ∈ CONFIG_FIBONACCI_LEVELS,
          (predictNextRanking s keyword).1 =
            some (r, listMin (kd.positions.map Position.position))) ∧
      (¬ cur.position < prev.position →
        ∃ r ∈ CONFIG_FIBONACCI_LEVELS,
          (predictNextRanking s keyword).1 =
            some (r, listMax (kd.positions.map Position.position)))) := by
  constructor
  · intro hlen
    match hps : kd.positions with
    | [] => simp [predictNextRanking, h, hps]
    | [x] => simp [predictNextRanking, h, hps]
    | x :: y :: t => rw [hps] at hlen; simp only [List.length_cons] at hlen; omega
  intro cur prev hcur hprev
  have hprev1 : 1 ≤ prev.position :=
    hpos prev (List.mem_of_mem_dropLast (getLast?_mem hprev))
  have hprev0 : ¬ prev.position = 0 := by
    intro h0; rw [h0] at hprev1; norm_num at hprev1
  have hne : kd.positions ≠ [] := by
    intro h0; rw [h0] at hcur; cases hcur
  set ps := kd.positions.map Position.position with hps
  have hpsne : ps ≠ [] := by
    simp [hps, hne]
  set sortedLevels := (calcFibLevels ps).insertionSort fun a b => a.2 ≤ b.2 with hsl
  have hsort : sortedLevels.Sorted fun a b => a.2 ≤ b.2 :=
    List.sorted_insertionSort _ _
  have hmemiff : ∀ lv : ℚ × ℚ, lv ∈ sortedLevels ↔ lv ∈ calcFibLevels ps :=
    fun lv => List.mem_insertionSort _
  have hslne : sortedLevels ≠ [] := by
    intro h0
    have := congrArg List.length h0
    rw [hsl, List.length_insertionSort] at this
    simp [calcFibLevels, FIB_LEVELS_ENTRIES_ORDER] at this
  obtain ⟨h0, t0, hcons⟩ := List.exists_cons_of_ne_nil hslne
  have hh0 : sortedLevels.head? = some h0 := by rw [hcons]; rfl
  have hh0min : h0.2 = listMin ps := by
    have hle : h0.2 ≤ listMin ps :=
      sorted_head?_le hsort hh0 ((hmemiff _).mpr (one_mem_calcFibLevels ps))
    have hge := (calcFibLevels_value_bounds hpsne ((hmemiff h0).mp (by rw [hcons]; exact List.mem_cons_self _ _))).1
    exact le_antisymm hle hge
  obtain ⟨z, hz⟩ : ∃ z, sortedLevels.getLast? = some z := by
    rw [hcons]; exact ⟨(h0 :: t0).getLast (by simp), List.getLast?_eq_getLast _ _⟩
  have hzmax : z.2 = listMax ps := by
    have hge : listMax ps ≤ z.2 :=
      sorted_le_getLast? hsort hz ((hmemiff _).mpr (zero_mem_calcFibLevels ps))
    have hle := (calcFibLevels_value_bounds hpsne ((hmemiff z).mp (getLast?_mem hz))).2
    exact le_antisymm hle hge
  have hh0cfg : h0.1 ∈ CONFIG_FIBONACCI_LEVELS :=
    entries_order_iff_config.mp
      (calcFibLevels_mem_elim ((hmemiff h0).mp (by rw [hcons]; exact List.mem_cons_self _ _))).1
  have hzcfg : z.1 ∈ CONFIG_FIBONACCI_LEVELS :=
    entries_order_iff_config.mp
      (calcFibLevels_mem_elim ((hmemiff z).mp (getLast?_mem hz))).1
  constructor
  · intro hup
    refine ⟨h0.1, hh0cfg, ?_⟩
    have : (predictNextRanking s keyword).1 = some h0 := by
      rcases find_lt_head_or_none hsort hh0 cur.position with hf | hf <;>
        simp only [predictNextRanking, h, hcur, hprev, if_neg hprev0,
          calculateFibonacciLevels, ← hps, ← hsl, if_pos hup, hf, hh0]
    rw [this, ← hh0min]
  · intro hdown
    refine ⟨z.1, hzcfg, ?_⟩
    have : (predictNextRanking s keyword).1 = some z := by
      rcases rev_find_gt_last_or_none hsort hz cur.position with hf | hf <;>
        simp only [predictNextRanking, h, hcur, hprev, if_neg hprev0,
          calculateFibonacciLevels, ← hps, ← hsl, if_neg hdown, hf, hz]
    rw [this, ← hzmax]

/-- Witness for the amended C6: on the improving series `1, 10, 5` the
prediction is some level valued at the series minimum. -/
theorem predictNextRanking_amended_witness :
    ∃ r ∈ CONFIG_FIBONACCI_LEVELS,
      (predictNextRanking (mkState [("d1", 1), ("d2", 10), ("d3", 5)]) "kw").1 =
        some (r, listMin [(1 : ℚ), 10, 5]) := by
  have h := (predictNextRanking_amended (mkState [("d1", 1), ("d2", 10), ("d3", 5)]) "kw"
      { keyword := "kw", searchVolume := 10,
        positions := [{ date := "d1", position := 1, url := "" },
                      { date := "d2", position := 10, url := "" },
                      { date := "d3", position := 5, url := "" }],
        volatilityScore := none } rfl
      (by intro p hp; fin_cases hp <;> norm_num)).2
    { date := "d3", position := 5, url := "" } { date := "d2", position := 10, url := "" }
    rfl rfl
  exact h.1 (by norm_num)

/-! ## Claim C2 -/

theorem length_changesOf (positions : List ℚ) :
    (changesOf positions).length = positions.length - 1 := by
  simp [changesOf]

theorem sum_sq_eq_zero_iff (l : List ℚ) (m : ℚ) :
    ((l.map fun b => (b - m) ^ 2).sum = 0) ↔ ∀ b ∈ l, b = m := by
  induction l with
  | nil => simp
  | cons x xs ih =>
    rw [List.map_cons, List.sum_cons,
      add_eq_zero_iff_of_nonneg (sq_nonneg _)
        (List.sum_nonneg fun q hq => by
          rcases List.mem_map.mp hq with ⟨b, _, rfl⟩
          exact sq_nonneg _)]
    rw [ih]
    constructor
    · rintro ⟨h1, h2⟩ b hb
      rcases List.mem_cons.mp hb with rfl | hb
      · have := pow_eq_zero_iff (n := 2) (by norm_num) |>.mp h1
        linarith [sub_eq_zero.mp this]
      · exact h2 b hb
    · intro hall
      refine ⟨?_, fun b hb => hall b (List.mem_cons.mpr (Or.inr hb))⟩
      have := hall x (List.mem_cons_self x xs)
      rw [this]
      ring

theorem length_le_sum (l : List ℚ) (h : ∀ p ∈ l, 1 ≤ p) : (l.length : ℚ) ≤ l.sum := by
  induction l with
  | nil => simp
  | cons x xs ih =>
    rw [List.length_cons, List.sum_cons]
    push_cast
    have h1 := h x (List.mem_cons_self x xs)
    have h2 := ih fun p hp => h p (List.mem_cons.mpr (Or.inr hp))
    linarith

theorem popMean_pos {l : List ℚ} (hne : l ≠ []) (h : ∀ p ∈ l, 1 ≤ p) :
    0 < popMean l := by
  have hlen : 0 < (l.length : ℚ) := by
    have := List.length_pos.mpr hne
    exact_mod_cast this
  exact div_pos (lt_of_lt_of_le hlen (length_le_sum l h)) hlen

theorem all_eq_mean_iff_pairwise {l : List ℚ} (hne : l ≠ []) :
    (∀ b ∈ l, b = popMean l) ↔ ∀ b ∈ l, ∀ c ∈ l, b = c := by
  constructor
  · intro h b hb c hc
    rw [h b hb, h c hc]
  · intro h b hb
    have hsum : l.sum = l.length • b := List.sum_eq_card_nsmul l b fun c hc => h c hc b hb
    have hlen : (l.length : ℚ) ≠ 0 := by
      have := List.length_pos.mpr hne
      positivity
    rw [popMean, hsum, nsmul_eq_mul, mul_comm, mul_div_assoc, div_self hlen, mul_one]

/-- C2 counterexample: the series `1, 3, 5` has changes `2, 2` — none of
them zero — yet its volatility score is 0, because the standard deviation
of a constant change list vanishes. -/
theorem volatilityScore_zero_not_flat :
    volatilityScoreOf [1, 3, 5] = some 0 ∧
    ¬ ∀ c ∈ changesOf [1, 3, 5], c = 0 := by
  have hch : changesOf [1, 3, 5] = [2, 2] := by norm_num [changesOf]
  constructor
  · norm_num [volatilityScoreOf, hch, Real.sqrt_zero]
  · intro hall
    have := hall 2 (by rw [hch]; exact List.mem_cons_self 2 [2])
    norm_num at this

/-- C2 amended: for a series with at least 2 points and positions ≥ 1, the
mean position is positive (the score's denominator cannot vanish, so no
`NaN`), and the volatility score is 0 exactly when all consecutive absolute
changes are equal to one another — a strictly larger class than the
perfectly flat series of the original claim. -/
theorem volatilityScore_zero_iff (positions : List ℚ)
    (h2 : 2 ≤ positions.length) (h1 : ∀ p ∈ positions, 1 ≤ p) :
    0 < popMean positions ∧
    (volatilityScoreOf positions = some 0 ↔
      ∀ c ∈ changesOf positions, ∀ d ∈ changesOf positions, c = d) := by
  have hne : positions ≠ [] := by
    intro h0; rw [h0] at h2; simp at h2
  have hmean := popMean_pos hne h1
  refine ⟨hmean, ?_⟩
  have hchne : changesOf positions ≠ [] := by
    intro h0
    have := length_changesOf positions
    rw [h0] at this
    simp at this
    omega
  have hchlen : (0 : ℚ) < ((changesOf positions).length : ℚ) := by
    have := List.length_pos.mpr hchne
    exact_mod_cast this
  have hvar_nonneg : (0 : ℚ) ≤
      ((changesOf positions).map fun b =>
        (b - (changesOf positions).sum / ((changesOf positions).length : ℚ)) ^ 2).sum /
        ((changesOf positions).length : ℚ) := by
    apply div_nonneg _ (le_of_lt hchlen)
    exact List.sum_nonneg fun q hq => by
      rcases List.mem_map.mp hq with ⟨b, _, rfl⟩
      exact sq_nonneg _
  rw [volatilityScoreOf]
  simp only [List.isEmpty_iff, hchne, if_false, ite_false]
  rw [Option.some_inj]
  have havg : ((positions.sum / (positions.length : ℚ) : ℚ) : ℝ) ≠ 0 := by
    have : (0 : ℝ) < ((positions.sum / (positions.length : ℚ) : ℚ) : ℝ) := by
      exact_mod_cast hmean
    linarith
  rw [mul_eq_zero, div_eq_zero_iff]
  have h100 : (100 : ℝ) ≠ 0 := by norm_num
  constructor
  · intro hc
    rcases hc with (hs | hbot) | h100'
    · have hvle : ((((changesOf positions).map fun b =>
          (b - (changesOf positions).sum / ((changesOf positions).length : ℚ)) ^ 2).sum /
            ((changesOf positions).length : ℚ) : ℚ) : ℝ) ≤ 0 :=
        Real.sqrt_eq_zero'.mp hs
      have hveq : (((changesOf positions).map fun b =>
          (b - (changesOf positions).sum / ((changesOf positions).length : ℚ)) ^ 2).sum /
            ((changesOf positions).length : ℚ) : ℚ) = 0 := by
        have : ((((changesOf positions).map fun b =>
            (b - (changesOf positions).sum / ((changesOf positions).length : ℚ)) ^ 2).sum /
              ((changesOf positions).length : ℚ) : ℚ) : ℝ) = 0 := by
          have hv0 : (0 : ℝ) ≤ ((((changesOf positions).map fun b =>
              (b - (changesOf positions).sum / ((changesOf positions).length : ℚ)) ^ 2).sum /
                ((changesOf positions).length : ℚ) : ℚ) : ℝ) := by
            exact_mod_cast hvar_nonneg
          linarith
        exact_mod_cast this
      have hsum0 : ((changesOf positions).map fun b =>
          (b - (changesOf positions).sum / ((changesOf positions).length : ℚ)) ^ 2).sum = 0 := by
        rcases div_eq_zero_iff.mp hveq with h | h
        · exact h
        · exact absurd h (by positivity)
      have hall := (sum_sq_eq_zero_iff _ _).mp hsum0
      exact (all_eq_mean_iff_pairwise hchne).mp hall
    · exact absurd hbot havg
    · exact absurd h100' h100
  · intro hpair
    left; left
    have hall := (all_eq_mean_iff_pairwise hchne).mpr hpair
    have hsum0 := (sum_sq_eq_zero_iff (changesOf positions)
      ((changesOf positions).sum / ((changesOf positions).length : ℚ))).mpr hall
    have : (((changesOf positions).map fun b =>
        (b - (changesOf positions).sum / ((changesOf positions).length : ℚ)) ^ 2).sum /
          ((changesOf positions).length : ℚ) : ℚ) = 0 := by
      rw [hsum0, zero_div]
    rw [this]
    simp [Real.sqrt_zero]

/-- Witness for the amended C2 at the series `1, 4`. -/
theorem volatilityScore_zero_iff_witness :
    0 < popMean [(1 : ℚ), 4] ∧
    (volatilityScoreOf [(1 : ℚ), 4] = some 0 ↔
      ∀ c ∈ changesOf [(1 : ℚ), 4], ∀ d ∈ changesOf [(1 : ℚ), 4], c = d) :=
  volatilityScore_zero_iff [1, 4] (by norm_num)
    (by intro p hp; fin_cases hp <;> norm_num)

/-! ## Claim C3 -/

/-- In the `Except` monad, `.map` over a list (embedded as `mapM`) aborts
with an error as soon as any element's body throws. -/
theorem mapM_error_of_mem {α β : Type} (f : α → Except String β) :
    ∀ {l : List α} {x : α} {e : String}, x ∈ l → f x = Except.error e →
      ∃ msg, l.mapM f = Except.error msg := by
  intro l
  induction l with
  | nil => intro x e hx _; cases hx
  | cons y ys ih =>
    intro x e hx hfx
    rw [List.mapM_cons]
    cases hfy : f y with
    | error msg => exact ⟨msg, rfl⟩
    | ok b =>
      rcases List.mem_cons.mp hx with rfl | hx
      · rw [hfx] at hfy; cases hfy
      · rcases ih hx hfx with ⟨msg, hm⟩
        refine ⟨msg, ?_⟩
        show ((ys.mapM f) >>= fun as => pure (b :: as)) = Except.error msg
        rw [hm]
        rfl

/-- C3 counterexample: a batch of two long-format rows, the second with the
unparseable date `"not-a-date"`, is aborted whole — `transformSEMrushData`
propagates the `formatDate` throw instead of dropping the one row and
keeping the first (parseable) row. -/
theorem transformSEMrushDataLong_bad_date_aborts :
    transformSEMrushDataLong
      [{ Keyword := "a", Date := "20240101", Position := JsValue.num 3,
         SearchVolume := JsValue.num 10 },
       { Keyword := "b", Date := "not-a-date", Position := JsValue.num 4,
         SearchVolume := JsValue.num 10 }] =
      Except.error "Invalid date format: not-a-date" := by
  rfl

/-- C3 amended: when any long-format row that survives the position/keyword
filter has an unparseable date, the whole transformation returns an error:
no partial output is produced and the batch is aborted (there is no
`try`/`catch` around the `.map`). -/
theorem transformSEMrushDataLong_aborts (rawData : List LongRow) (row : LongRow)
    (e : String) (hmem : row ∈ rawData.filter longRowKept)
    (hbad : formatDate row.Date = Except.error e) :
    ∃ msg, transformSEMrushDataLong rawData = Except.error msg := by
  have hne : rawData.isEmpty = false := by
    cases rawData with
    | nil => cases hmem
    | cons r rest => rfl
  have hfail : longRowRecord row = Except.error e := by
    unfold longRowRecord
    rw [hbad]
    rfl
  rcases mapM_error_of_mem longRowRecord hmem hfail with ⟨msg, hm⟩
  refine ⟨msg, ?_⟩
  unfold transformSEMrushDataLong
  rw [hne]
  show ((rawData.filter longRowKept).mapM longRowRecord).bind _ = Except.error msg
  rw [hm]
  rfl

/-- Witness for the amended C3: the two-row batch of the counterexample
satisfies the hypotheses, so the transformation errors out. -/
theorem transformSEMrushDataLong_aborts_witness :
    ∃ msg, transformSEMrushDataLong
      [{ Keyword := "a", Date := "20240101", Position := JsValue.num 3,
         SearchVolume := JsValue.num 10 },
       { Keyword := "b", Date := "not-a-date", Position := JsValue.num 4,
         SearchVolume := JsValue.num 10 }] = Except.error msg :=
  transformSEMrushDataLong_aborts _
    { Keyword := "b", Date := "not-a-date", Position := JsValue.num 4,
      SearchVolume := JsValue.num 10 }
    "Invalid date format: not-a-date" (by decide) (by rfl)

/-! ## Claim C7 -/

theorem changesOf_eq_nil {ps : List ℚ} (h : ps.length < 2) : changesOf ps = [] := by
  have hl := length_changesOf ps
  have : (changesOf ps).length = 0 := by omega
  exact List.length_eq_zero.mp this

theorem changesOf_ne_nil {ps : List ℚ} (h : 2 ≤ ps.length) : changesOf ps ≠ [] := by
  have hl := length_changesOf ps
  intro h0
  rw [h0] at hl
  simp at hl
  omega

/-- For a series with at least two points, the loop body of
`calculateVolatility` computes exactly the spec's
`(population stdDev of |changes|) / (mean position) × 100`. -/
theorem volatilityScoreOf_eq_spec {ps : List ℚ} (h : 2 ≤ ps.length) :
    volatilityScoreOf ps = some (specVolatilityScore ps) := by
  have hchne := changesOf_ne_nil h
  rw [volatilityScoreOf]
  simp only [List.isEmpty_iff, hchne, if_false, ite_false]
  rfl

/-- A series with fewer than two points is skipped: no volatility result. -/
theorem volatilityScoreOf_eq_none {ps : List ℚ} (h : ps.length < 2) :
    volatilityScoreOf ps = none := by
  rw [volatilityScoreOf]
  simp [changesOf_eq_nil h]

theorem find?_keyword_of_nodup :
    ∀ {l : List KeywordData} {kd : KeywordData},
      (l.map KeywordData.keyword).Nodup → kd ∈ l →
      l.find? (fun k => k.keyword == kd.keyword) = some kd := by
  intro l
  induction l with
  | nil => intro kd _ hmem; cases hmem
  | cons x xs ih =>
    intro kd hnd hmem
    rw [List.map_cons, List.nodup_cons] at hnd
    by_cases hx : x.keyword == kd.keyword
    · have hxkd : x = kd := by
        rcases List.mem_cons.mp hmem with rfl | hmem'
        · rfl
        · exact absurd (by rw [eq_of_beq hx]; exact List.mem_map_of_mem _ hmem') hnd.1
      rw [List.find?_cons_of_pos (p := fun k : KeywordData => k.keyword == kd.keyword) _ hx,
        hxkd]
    · have hmem' : kd ∈ xs := by
        rcases List.mem_cons.mp hmem with rfl | hmem'
        · exact absurd (by simp : kd.keyword == kd.keyword) hx
        · exact hmem'
      rw [List.find?_cons_of_neg (p := fun k : KeywordData => k.keyword == kd.keyword) _ hx]
      exact ih hnd.2 hmem'

/-- The per-keyword update of `calculateVolatility` never renames. -/
theorem volatilityUpdate_keyword (kd : KeywordData) :
    (match volatilityScoreOf (kd.positions.map Position.position) with
      | none => kd
      | some score => { kd with volatilityScore := some score }).keyword = kd.keyword := by
  cases volatilityScoreOf (kd.positions.map Position.position) <;> rfl

/-- C7: after `calculateVolatility`, a keyword with at least 2 points
carries the score `(population stdDev of consecutive |changes| / mean
position) × 100` and sits in `volatileKeywords` exactly when that score
strictly exceeds `CONFIG.VOLATILITY_THRESHOLD`; a keyword with fewer than
2 points is left without a score and is never classified volatile. -/
theorem calculateVolatility_spec (s : AnalyzerState) (kd : KeywordData)
    (hmem : kd ∈ s.keywords)
    (huniq : (s.keywords.map KeywordData.keyword).Nodup) :
    (2 ≤ kd.positions.length →
      getKeywordData (calculateVolatility s) kd.keyword =
        some { kd with
               volatilityScore := some (specVolatilityScore (kd.positions.map Position.position)) } ∧
      (kd.keyword ∈ (calculateVolatility s).volatileKeywords ↔
        specVolatilityScore (kd.positions.map Position.position) >
          (CONFIG_VOLATILITY_THRESHOLD : ℝ))) ∧
    (kd.positions.length < 2 →
      getKeywordData (calculateVolatility s) kd.keyword = some kd ∧
      kd.keyword ∉ (calculateVolatility s).volatileKeywords) := by
  have hfind : ∀ target : KeywordData, target ∈ s.keywords →
      getKeywordData (calculateVolatility s) target.keyword =
        some (match volatilityScoreOf (target.positions.map Position.position) with
          | none => target
          | some score => { target with volatilityScore := some score }) := by
    intro target htarget
    have hstep : getKeywordData (calculateVolatility s) target.keyword =
        (s.keywords.map fun kd' =>
          (match volatilityScoreOf (kd'.positions.map Position.position) with
            | none => kd'
            | some score => { kd' with volatilityScore := some score } : KeywordData)).find?
          (fun k : KeywordData => k.keyword == target.keyword) := rfl
    rw [hstep, List.find?_map]
    have hcomp : ((fun k : KeywordData => k.keyword == target.keyword) ∘ fun kd' =>
        (match volatilityScoreOf (kd'.positions.map Position.position) with
          | none => kd'
          | some score => { kd' with volatilityScore := some score } : KeywordData)) =
        fun k : KeywordData => k.keyword == target.keyword := by
      funext k
      simp only [Function.comp]
      rw [volatilityUpdate_keyword]
    rw [hcomp, find?_keyword_of_nodup huniq htarget]
    rfl
  have hmemvol : ∀ target : KeywordData, target ∈ s.keywords →
      (target.keyword ∈ (calculateVolatility s).volatileKeywords ↔
        ∃ kd' ∈ s.keywords,
          (match volatilityScoreOf (kd'.positions.map Position.position) with
            | none => none
            | some score =>
              if score > (CONFIG_VOLATILITY_THRESHOLD : ℝ) then some kd'.keyword
              else none) = some target.keyword) := by
    intro target _
    show target.keyword ∈ List.insertionSort _ _ ↔ _
    rw [List.mem_insertionSort, List.mem_filterMap]
  constructor
  · intro h2
    have hscore := @volatilityScoreOf_eq_spec
      (kd.positions.map Position.position) (by simpa using h2)
    constructor
    · rw [hfind kd hmem, hscore]
    · rw [hmemvol kd hmem]
      constructor
      · rintro ⟨kd', hkd', hpush⟩
        split at hpush
        · cases hpush
        · rename_i sc hs'
          split at hpush
          · rename_i hgt
            have hname : kd'.keyword = kd.keyword := Option.some.inj hpush
            have : kd' = kd := List.inj_on_of_nodup_map huniq hkd' hmem hname
            subst this
            rw [hscore] at hs'
            cases hs'
            exact hgt
          · cases hpush
      · intro hgt
        refine ⟨kd, hmem, ?_⟩
        rw [hscore]
        split
        · rename_i heq; cases heq
        · rename_i sc heq
          cases heq
          split
          · rfl
          · rename_i hn; exact absurd hgt hn
  · intro hlt
    have hscore := @volatilityScoreOf_eq_none
      (kd.positions.map Position.position) (by simpa using hlt)
    constructor
    · rw [hfind kd hmem, hscore]
    · rw [hmemvol kd hmem]
      rintro ⟨kd', hkd', hpush⟩
      split at hpush
      · cases hpush
      · rename_i sc hs'
        split at hpush
        · have hname : kd'.keyword = kd.keyword := Option.some.inj hpush
          have : kd' = kd := List.inj_on_of_nodup_map huniq hkd' hmem hname
          subst this
          rw [hscore] at hs'
          cases hs'
        · cases hpush

/-- Witness for C7 at a one-point series: no score is stored and the
keyword is not classified volatile. -/
theorem calculateVolatility_spec_witness :
    getKeywordData (calculateVolatility (mkState [("d1", 5)])) "kw" =
      some { keyword := "kw", searchVolume := 10,
             positions := [{ date := "d1", position := 5, url := "" }],
             volatilityScore := none } ∧
    "kw" ∉ (calculateVolatility (mkState [("d1", 5)])).volatileKeywords := by
  have h := (calculateVolatility_spec (mkState [("d1", 5)])
      { keyword := "kw", searchVolume := 10,
        positions := [{ date := "d1", position := 5, url := "" }],
        volatilityScore := none }
      (List.mem_singleton.mpr rfl) (by simp [mkState])).2 (by norm_num)
  exact h

/-! ## Claim C8 -/

theorem length_filterMap_eq_countP {α β : Type} (f : α → Option β) (l : List α) :
    (l.filterMap f).length = l.countP fun a => (f a).isSome := by
  induction l with
  | nil => rfl
  | cons x xs ih =>
    rw [List.filterMap_cons, List.countP_cons]
    cases hfx : f x with
    | none => simp [hfx, ih]
    | some b => simp [hfx, ih]

/-- C8: for every wide-format row, `transformSEMrushData` emits one record
per date column whose cell parses as an integer; each record's `Date` is
the `YYYY-MM-DD` reformatting of the trailing token of its source column
name; a non-numeric cell is skipped silently per cell, and rows are
processed independently (one row's cells never affect another's). -/
theorem transformSEMrushDataWide_spec (row : WideRow) (rest : List WideRow) :
    transformSEMrushDataWide (row :: rest) =
      wideRowRecords row ++ transformSEMrushDataWide rest ∧
    (wideRowRecords row).length =
      ((dateColumnsOf row).filter fun c => (jsParseInt (cellOf row c)).isSome).length ∧
    (∀ rec ∈ wideRowRecords row,
      rec.Keyword = row.Keyword ∧
      ∃ col ∈ dateColumnsOf row, ∃ p : ℤ,
        jsParseInt (cellOf row col) = some p ∧ rec.Position = (p : ℚ) ∧
        rec.Date = reformatDateToken (lastToken col)) ∧
    (∀ col ∈ dateColumnsOf row, ∀ p : ℤ,
      jsParseInt (cellOf row col) = some p →
      ∃ rec ∈ wideRowRecords row,
        rec.Date = reformatDateToken (lastToken col) ∧ rec.Position = (p : ℚ)) := by
  have hrec : wideRowRecords row =
      ((dateColumnsOf row).insertionSort fun a b => ¬ lastToken b < lastToken a).filterMap
        fun dateCol =>
          match jsParseInt (cellOf row dateCol) with
          | none => none
          | some position =>
            some { Keyword := row.Keyword
                   Date := reformatDateToken (lastToken dateCol)
                   Position := (position : ℚ)
                   URL := landingUrlOf row dateCol (lastToken dateCol)
                   Volume := (jsParseFloat row.SearchVolume).getD 0 } := rfl
  refine ⟨by simp [transformSEMrushDataWide], ?_, ?_, ?_⟩
  · rw [hrec, length_filterMap_eq_countP]
    have hcnt : ∀ c,
        ((fun dateCol =>
          match jsParseInt (cellOf row dateCol) with
          | none => none
          | some position =>
            some { Keyword := row.Keyword
                   Date := reformatDateToken (lastToken dateCol)
                   Position := (position : ℚ)
                   URL := landingUrlOf row dateCol (lastToken dateCol)
                   Volume := (jsParseFloat row.SearchVolume).getD 0 : RawEntry }) c).isSome =
          (jsParseInt (cellOf row c)).isSome := by
      intro c
      cases h : jsParseInt (cellOf row c) <;> simp [h]
    rw [List.countP_congr fun c _ => by rw [hcnt c]]
    rw [(List.perm_insertionSort _ (dateColumnsOf row)).countP_eq]
    rw [List.countP_eq_length_filter]
  · intro rec hmem
    rw [hrec] at hmem
    rcases List.mem_filterMap.mp hmem with ⟨col, hcol, hf⟩
    have hcol' : col ∈ dateColumnsOf row := (List.mem_insertionSort _).mp hcol
    cases hp : jsParseInt (cellOf row col) with
    | none => rw [hp] at hf; cases hf
    | some p =>
      rw [hp] at hf
      cases hf
      exact ⟨rfl, col, hcol', p, hp, rfl, rfl⟩
  · intro col hcol p hp
    refine ⟨{ Keyword := row.Keyword, Date := reformatDateToken (lastToken col),
              Position := (p : ℚ), URL := landingUrlOf row col (lastToken col),
              Volume := (jsParseFloat row.SearchVolume).getD 0 }, ?_, rfl, rfl⟩
    rw [hrec]
    refine List.mem_filterMap.mpr ⟨col, (List.mem_insertionSort _).mpr hcol, ?_⟩
    rw [hp]

/-- Witness for C8 at the spec's own example row: exactly one of the two
date cells parses, and the parsed cell yields a record dated
`2024-01-01` at position 5. -/
theorem transformSEMrushDataWide_spec_witness :
    (wideRowRecords
        { Keyword := "shoes", SearchVolume := JsValue.num 1000,
          cells := [("site.com/x_20240101", JsValue.num 5),
                    ("site.com/x_20240201", JsValue.str "-")] }).length =
      ((dateColumnsOf
        { Keyword := "shoes", SearchVolume := JsValue.num 1000,
          cells := [("site.com/x_20240101", JsValue.num 5),
                    ("site.com/x_20240201", JsValue.str "-")] }).filter fun c =>
        (jsParseInt (cellOf
          { Keyword := "shoes", SearchVolume := JsValue.num 1000,
            cells := [("site.com/x_20240101", JsValue.num 5),
                      ("site.com/x_20240201", JsValue.str "-")] } c)).isSome).length ∧
    ∃ rec ∈ wideRowRecords
        { Keyword := "shoes", SearchVolume := JsValue.num 1000,
          cells := [("site.com/x_20240101", JsValue.num 5),
                    ("site.com/x_20240201", JsValue.str "-")] },
      rec.Date = reformatDateToken (lastToken "site.com/x_20240101") ∧
      rec.Position = (5 : ℚ) := by
  refine ⟨(transformSEMrushDataWide_spec _ []).2.1,
    (transformSEMrushDataWide_spec _ []).2.2.2 "site.com/x_20240101" (by decide) 5 (by decide)⟩

/-! ## Claim C9 -/

instance : IsTotal RawEntry fun a b => a.Date ≤ b.Date :=
  ⟨fun a b => le_total a.Date b.Date⟩

instance : IsTrans RawEntry fun a b => a.Date ≤ b.Date :=
  ⟨fun _ _ _ h1 h2 => le_trans h1 h2⟩

section Stability

variable {α : Type} (key : α → String)

/-- Filtering one tie class out of an `orderedInsert` by the sort key:
the inserted element lands before every element of its own class (the
elements skipped over have strictly smaller keys), so it is prepended to
the class and the rest of the class keeps its order. -/
theorem filter_orderedInsert_key (d : String) (a : α) (l : List α) :
    ((l.orderedInsert (fun x y => key x ≤ key y) a).filter fun x => key x == d) =
      if key a == d then a :: l.filter (fun x => key x == d)
      else l.filter fun x => key x == d := by
  rw [List.orderedInsert_eq_take_drop, List.filter_append]
  have htake : ∀ x ∈ l.takeWhile fun b => ¬ (key a ≤ key b), key x < key a := by
    intro x hx
    have := List.mem_takeWhile_imp hx
    simp only [decide_eq_true_eq] at this
    exact lt_of_not_le this
  by_cases hd : key a = d
  · rw [if_pos (by simp [hd])]
    have h1 : ((l.takeWhile fun b => ¬ (key a ≤ key b)).filter fun x => key x == d) = [] := by
      refine List.filter_eq_nil_iff.mpr fun x hx => ?_
      have := htake x hx
      simp only [beq_iff_eq]
      rw [← hd]
      exact ne_of_lt this
    rw [h1, List.filter_cons, if_pos (by simp [hd])]
    have h2 : (l.filter fun x => key x == d) =
        ((l.takeWhile fun b => ¬ (key a ≤ key b)).filter fun x => key x == d) ++
          ((l.dropWhile fun b => ¬ (key a ≤ key b)).filter fun x => key x == d) := by
      rw [← List.filter_append, List.takeWhile_append_dropWhile]
    rw [h2, h1]
    rfl
  · rw [if_neg (by simp [hd])]
    rw [List.filter_cons, if_neg (by simp [hd])]
    rw [← List.filter_append, List.takeWhile_append_dropWhile]

/-- Stability of the embedded sort: filtering any one key class out of the
sorted list gives the class in its original order. -/
theorem filter_insertionSort_key (d : String) (l : List α) :
    ((l.insertionSort fun x y => key x ≤ key y).filter fun x => key x == d) =
      l.filter fun x => key x == d := by
  induction l with
  | nil => rfl
  | cons x xs ih =>
    rw [List.insertionSort, filter_orderedInsert_key key d x, List.filter_cons]
    by_cases hd : key x = d
    · rw [if_pos (by simp [hd]), if_pos (by simp [hd]), ih]
    · rw [if_neg (by simp [hd]), if_neg (by simp [hd]), ih]

end Stability

/-- `insertGroup` on a key that is already present (keys distinct) appends
the record to that key's group and leaves every other group alone. -/
theorem insertGroup_of_mem :
    ∀ {g : List (String × List RawEntry)} {k : String} (e : RawEntry),
      (g.map Prod.fst).Nodup → k ∈ g.map Prod.fst →
      insertGroup g k e = g.map fun p => if p.1 = k then (p.1, p.2 ++ [e]) else p := by
  intro g
  induction g with
  | nil => intro k e _ hk; cases hk
  | cons p rest ih =>
    intro k e hnd hk
    rw [List.map_cons, List.nodup_cons] at hnd
    cases p with
    | mk k' es =>
      by_cases hp : k' = k
      · subst hp
        rw [insertGroup, if_pos rfl, List.map_cons]
        simp only [if_pos rfl]
        congr 1
        have hrest : ∀ q ∈ rest, (if q.1 = k' then (q.1, q.2 ++ [e]) else q) = q := by
          intro q hq
          rw [if_neg]
          intro hq1
          have hq2 : q.1 ∈ rest.map Prod.fst := List.mem_map_of_mem Prod.fst hq
          rw [hq1] at hq2
          exact hnd.1 hq2
        exact ((List.map_congr_left hrest).trans (List.map_id rest)).symm
      · have hk' : k ∈ rest.map Prod.fst := by
          rcases List.mem_cons.mp hk with h' | h'
          · exact absurd h'.symm hp
          · exact h'
        rw [insertGroup, if_neg hp, List.map_cons]
        simp only [if_neg hp]
        congr 1
        exact ih e hnd.2 hk'

/-- `insertGroup` on a fresh key adds a new singleton group at the end. -/
theorem insertGroup_of_not_mem :
    ∀ {g : List (String × List RawEntry)} {k : String} (e : RawEntry),
      k ∉ g.map Prod.fst →
      insertGroup g k e = g ++ [(k, [e])] := by
  intro g
  induction g with
  | nil => intro k e _; rfl
  | cons p rest ih =>
    intro k e hk
    rw [List.map_cons] at hk
    cases p with
    | mk k' es =>
      have hp : ¬ k' = k := fun h => hk (List.mem_cons.mpr (Or.inl h.symm))
      rw [insertGroup, if_neg hp, List.cons_append]
      congr 1
      exact ih e fun h => hk (List.mem_cons.mpr (Or.inr h))

/-- One step of `groupBy`: inserting a record preserves the invariant that
keys are distinct and every group equals the filter of the records seen so
far by its key. -/
theorem insertGroup_spec (e : RawEntry) (g : List (String × List RawEntry))
    (seen : List RawEntry)
    (ha : (g.map Prod.fst).Nodup)
    (hb : ∀ p ∈ g, p.2 = seen.filter fun x => x.Keyword == p.1)
    (hc : ∀ k, k ∉ g.map Prod.fst → seen.filter (fun x => x.Keyword == k) = []) :
    ((insertGroup g e.Keyword e).map Prod.fst).Nodup ∧
    (∀ p ∈ insertGroup g e.Keyword e,
      p.2 = (seen ++ [e]).filter fun x => x.Keyword == p.1) ∧
    (∀ k, k ∉ (insertGroup g e.Keyword e).map Prod.fst →
      (seen ++ [e]).filter (fun x => x.Keyword == k) = []) := by
  have hfilter : ∀ k, (seen ++ [e]).filter (fun x => x.Keyword == k) =
      seen.filter (fun x => x.Keyword == k) ++ if e.Keyword == k then [e] else [] := by
    intro k
    rw [List.filter_append, List.filter_singleton, Bool.cond_eq_ite]
  by_cases hmem : e.Keyword ∈ g.map Prod.fst
  · rw [insertGroup_of_mem e ha hmem]
    have hkeys : ((g.map fun p => if p.1 = e.Keyword then (p.1, p.2 ++ [e]) else p).map
        Prod.fst) = g.map Prod.fst := by
      rw [List.map_map]
      refine List.map_congr_left fun p _ => ?_
      simp only [Function.comp]
      split <;> rfl
    refine ⟨by rw [hkeys]; exact ha, ?_, ?_⟩
    · intro p' hp'
      rcases List.mem_map.mp hp' with ⟨p, hp, rfl⟩
      by_cases hp1 : p.1 = e.Keyword
      · rw [if_pos hp1]
        simp only
        rw [hfilter, ← hb p hp, if_pos (by simp [hp1])]
      · rw [if_neg hp1]
        rw [hfilter, ← hb p hp, if_neg (by simp; intro h; exact hp1 h.symm), List.append_nil]
    · intro k hk
      rw [hkeys] at hk
      have hek : ¬ (e.Keyword == k) = true := by
        simp only [beq_iff_eq]
        intro h
        exact hk (h ▸ hmem)
      rw [hfilter, hc k hk, if_neg hek, List.append_nil]
  · rw [insertGroup_of_not_mem e hmem]
    have hkeys : ((g ++ [(e.Keyword, [e])]).map Prod.fst) =
        g.map Prod.fst ++ [e.Keyword] := by
      rw [List.map_append]
      rfl
    refine ⟨?_, ?_, ?_⟩
    · rw [hkeys]
      rw [List.nodup_append]
      exact ⟨ha, List.nodup_singleton _, fun a hag => by
        simp only [List.mem_singleton]
        intro h
        exact hmem (h ▸ hag)⟩
    · intro p hp
      rcases List.mem_append.mp hp with hp | hp
      · have hp1 : ¬ (e.Keyword == p.1) = true := by
          simp only [beq_iff_eq]
          intro h
          exact hmem (h ▸ List.mem_map_of_mem Prod.fst hp)
        rw [hfilter, ← hb p hp, if_neg hp1, List.append_nil]
      · rcases List.mem_singleton.mp hp with rfl
        simp only
        rw [hfilter, hc e.Keyword hmem, if_pos (by simp), List.nil_append]
    · intro k hk
      rw [hkeys] at hk
      have hk1 : k ∉ g.map Prod.fst := fun h => hk (List.mem_append.mpr (Or.inl h))
      have hk2 : ¬ (e.Keyword == k) = true := by
        simp only [beq_iff_eq]
        intro h
        exact hk (List.mem_append.mpr (Or.inr (by simp [h])))
      rw [hfilter, hc k hk1, if_neg hk2, List.append_nil]

/-- Folding `insertGroup` over a record list keeps keys distinct and makes
every group the in-order filter of the input by its key. -/
theorem groupBy_fold_spec :
    ∀ (data : List RawEntry) (g : List (String × List RawEntry)) (seen : List RawEntry),
      (g.map Prod.fst).Nodup →
      (∀ p ∈ g, p.2 = seen.filter fun x => x.Keyword == p.1) →
      (∀ k, k ∉ g.map Prod.fst → seen.filter (fun x => x.Keyword == k) = []) →
      (((data.foldl (fun gs e => insertGroup gs e.Keyword e) g).map Prod.fst).Nodup ∧
       ∀ p ∈ data.foldl (fun gs e => insertGroup gs e.Keyword e) g,
         p.2 = (seen ++ data).filter fun x => x.Keyword == p.1) := by
  intro data
  induction data with
  | nil =>
    intro g seen ha hb _
    rw [List.foldl_nil, List.append_nil]
    exact ⟨ha, hb⟩
  | cons e rest ih =>
    intro g seen ha hb hc
    rw [List.foldl_cons]
    rcases insertGroup_spec e g seen ha hb hc with ⟨ha', hb', hc'⟩
    have h := ih (insertGroup g e.Keyword e) (seen ++ [e]) ha' hb' hc'
    rwa [List.append_assoc, List.singleton_append] at h

/-- `groupByKeyword` has distinct keys and each group is the in-order
filter of the input records by keyword. -/
theorem groupByKeyword_spec (data : List RawEntry) :
    ((groupByKeyword data).map Prod.fst).Nodup ∧
    ∀ p ∈ groupByKeyword data, p.2 = data.filter fun x => x.Keyword == p.1 := by
  have h := groupBy_fold_spec data [] [] (by simp) (by simp) (by intro k _; rfl)
  rwa [List.nil_append] at h

/-- C9: every keyword series built by `processRawData` has its points
sorted non-decreasing by date; points sharing a date keep their original
relative input order (each date class of the series equals, in order, the
date class of the input records for that keyword); and re-sorting an
already-sorted series leaves it unchanged. -/
theorem processRawData_spec (s : AnalyzerState) (data : List RawEntry)
    (s' : AnalyzerState) (h : processRawData s data = Except.ok s') :
    ∀ kd ∈ s'.keywords,
      List.Sorted (fun p q : Position => p.date ≤ q.date) kd.positions ∧
      (∀ d : String,
        kd.positions.filter (fun p => p.date == d) =
          ((data.filter fun e => e.Keyword == kd.keyword).filter fun e => e.Date == d).map
            fun entry =>
              { date := entry.Date, position := entry.Position, url := entry.URL }) ∧
      kd.positions.insertionSort (fun p q => p.date ≤ q.date) = kd.positions := by
  have hemp : data.isEmpty = false := by
    cases hd : data.isEmpty
    · rfl
    · exfalso
      unfold processRawData at h
      rw [hd] at h
      exact Except.noConfusion h
  have hkeys : s'.keywords = (groupByKeyword data).filterMap fun g =>
      match g.2 with
      | [] => none
      | e₀ :: _ =>
        some { keyword := g.1
               searchVolume := jsTrunc e₀.Volume
               positions := (g.2.insertionSort fun a b => a.Date ≤ b.Date).map fun entry =>
                 { date := entry.Date, position := entry.Position, url := entry.URL }
               volatilityScore := none } := by
    unfold processRawData at h
    rw [hemp] at h
    have h' := Except.ok.inj h
    rw [← h']
  intro kd hkd
  rw [hkeys] at hkd
  rcases List.mem_filterMap.mp hkd with ⟨g, hg, hfg⟩
  rcases groupByKeyword_spec data with ⟨_, hgroups⟩
  have hg2 := hgroups g hg
  cases hge : g.2 with
  | nil => rw [hge] at hfg; cases hfg
  | cons e₀ es =>
    rw [hge] at hfg
    rw [hge] at hg2
    cases hfg
    have hsorted : ((e₀ :: es).insertionSort fun a b => a.Date ≤ b.Date).Sorted
        fun a b => a.Date ≤ b.Date := List.sorted_insertionSort _ _
    have hpos_sorted : List.Sorted (fun p q : Position => p.date ≤ q.date)
        (((e₀ :: es).insertionSort fun a b => a.Date ≤ b.Date).map fun entry =>
          ({ date := entry.Date, position := entry.Position, url := entry.URL } : Position)) :=
      List.pairwise_map.mpr hsorted
    refine ⟨hpos_sorted, ?_, hpos_sorted.insertionSort_eq⟩
    intro d
    simp only
    rw [List.filter_map]
    have hcomp : ((fun p : Position => p.date == d) ∘ fun entry : RawEntry =>
        ({ date := entry.Date, position := entry.Position, url := entry.URL } : Position)) =
        fun e : RawEntry => e.Date == d := rfl
    rw [hcomp, filter_insertionSort_key RawEntry.Date d (e₀ :: es), hg2]

/-- Witness for C9 on a three-record input with a duplicated date: the
built series is date-sorted, the `2024-01-02` class keeps the input order
(position 5 before 6), and re-sorting changes nothing. -/
theorem processRawData_spec_witness :
    List.Sorted (fun p q : Position => p.date ≤ q.date)
      [{ date := "2024-01-01", position := 7, url := "" },
       { date := "2024-01-02", position := 5, url := "" },
       { date := "2024-01-02", position := 6, url := "" }] ∧
    ([{ date := "2024-01-01", position := 7, url := "" },
      { date := "2024-01-02", position := 5, url := "" },
      { date := "2024-01-02", position := 6, url := "" }] : List Position).filter
        (fun p => p.date == "2024-01-02") =
      ((([{ Keyword := "k", Date := "2024-01-02", Position := 5, URL := "", Volume := 9 },
          { Keyword := "k", Date := "2024-01-01", Position := 7, URL := "", Volume := 9 },
          { Keyword := "k", Date := "2024-01-02", Position := 6, URL := "", Volume := 9 }]
          : List RawEntry).filter fun e => e.Keyword == "k").filter
            fun e => e.Date == "2024-01-02").map
        (fun entry => { date := entry.Date, position := entry.Position, url := entry.URL }) ∧
    ([{ date := "2024-01-01", position := 7, url := "" },
      { date := "2024-01-02", position := 5, url := "" },
      { date := "2024-01-02", position := 6, url := "" }] : List Position).insertionSort
        (fun p q => p.date ≤ q.date) =
      [{ date := "2024-01-01", position := 7, url := "" },
       { date := "2024-01-02", position := 5, url := "" },
       { date := "2024-01-02", position := 6, url := "" }] := by
  have h := processRawData_spec (AnalyzerState.mk [] [])
    [{ Keyword := "k", Date := "2024-01-02", Position := 5, URL := "", Volume := 9 },
     { Keyword := "k", Date := "2024-01-01", Position := 7, URL := "", Volume := 9 },
     { Keyword := "k", Date := "2024-01-02", Position := 6, URL := "", Volume := 9 }]
    (AnalyzerState.mk
      [{ keyword := "k", searchVolume := 9,
         positions := [{ date := "2024-01-01", position := 7, url := "" },
                       { date := "2024-01-02", position := 5, url := "" },
                       { date := "2024-01-02", position := 6, url := "" }],
         volatilityScore := none }] [])
    (by
      have hle12 : (("2024-01-01" : String) ≤ "2024-01-02") = True :=
        eq_true (by rw [String.le_iff_toList_le]; decide)
      have hle21 : (("2024-01-02" : String) ≤ "2024-01-01") = False :=
        eq_false (by rw [String.le_iff_toList_le]; decide)
      have hle22 : (("2024-01-02" : String) ≤ "2024-01-02") = True := eq_true le_rfl
      simp only [processRawData, groupByKeyword, List.foldl, insertGroup, List.isEmpty,
        List.filterMap, List.insertionSort, List.orderedInsert, List.map, hle12, hle21,
        hle22, if_true, if_false, ite_true, ite_false]
      rfl)
    { keyword := "k", searchVolume := 9,
      positions := [{ date := "2024-01-01", position := 7, url := "" },
                    { date := "2024-01-02", position := 5, url := "" },
                    { date := "2024-01-02", position := 6, url := "" }],
      volatilityScore := none }
    (List.mem_singleton.mpr rfl)
  exact ⟨h.1, h.2.1 "2024-01-02", h.2.2⟩

end SeoFib
